import Mathlib

/-
Verification development for the sparklend-automations repository
(scripts/deploy.ts, scripts/deployAll.ts and the xchain-oracle-ticker
Web3Function handler).

The TypeScript sources are shallowly embedded: file-system reads,
process.env and the vendor SDK are modelled as explicit inputs, the
vendor keccak256 hash is an abstract function parameter, thrown
exceptions become Except errors, and the on-chain side effects issued
by a run are collected into an explicit action trace.
-/

set_option autoImplicit false

namespace SparklendAutomations

/-- Byte sequences (the contents of Buffers in the scripts). -/
abbrev Bytes := List Nat

/-- JavaScript `s.slice(0, -n)` on a string: drop the final `n`
characters, clamping at the empty string. -/
def jsSliceDropRight (s : String) (n : Nat) : String :=
  ⟨s.data.take (s.data.length - n)⟩

/-- JavaScript truthiness of a string-valued expression that may be
`undefined` (`none`): `undefined` and the empty string are falsy. -/
def jsTruthy : Option String → Bool
  | none => false
  | some s => s != ""

namespace Deploy

/-- `getBufferFromString` of deploy.ts: `Buffer.from(str, "utf-8")`,
abstracted as the list of character code points (an injective
byte-level encoding of the string). -/
def getBufferFromString (s : String) : Bytes :=
  s.data.map Char.toNat

/-- `createHash` of deploy.ts: keccak256 of the concatenation of the
keccak256 of the raw config bytes and the keccak256 of the IPFS
content-address string.  The vendor hash `keccak` (ethers
`utils.keccak256`, returning a hex string) is an abstract parameter. -/
def createHash (keccak : Bytes → String) (rawConfig : Bytes) (ipfsDeployment : String) : String :=
  let configHash := keccak rawConfig
  let ipfsDeploymentHash := keccak (getBufferFromString ipfsDeployment)
  keccak (getBufferFromString (configHash ++ ipfsDeploymentHash))

/-- One entry of an ABI JSON file, reduced to what
`Interface.getEventTopic` consumes: an event name and its parameter
types. -/
structure EventDef where
  name : String
  paramTypes : List String
  deriving DecidableEq

/-- The canonical signature of an event, e.g. `AnswerUpdated(int256,uint256)`:
what ethers hashes to obtain the event topic. -/
def EventDef.canonicalSignature (e : EventDef) : String :=
  e.name ++ "(" ++ String.intercalate "," e.paramTypes ++ ")"

/-- ethers `Interface.getEventTopic`: the keccak256 of the UTF-8 bytes
of the canonical signature of the named event; `none` when the ABI has
no event of that name (ethers throws). -/
def getEventTopic (keccak : Bytes → String) (abi : List EventDef) (eventName : String) :
    Option String :=
  (abi.find? (fun e => e.name == eventName)).map
    (fun e => keccak (getBufferFromString e.canonicalSignature))

/-- One `{ abiName, eventName }` pair of an event trigger filter. -/
structure EventTopicRef where
  abiName : String
  eventName : String
  deriving DecidableEq

/-- The parsed `trigger` field of a config file.  `other s` stands for
a trigger object whose `type` tag `s` is not one of the four supported
tags. -/
inductive Trigger where
  | block
  | cron (cronExpr : String)
  | event (address : String) (topics : List EventTopicRef) (blockConfirmations : Nat)
  | time (interval : Nat)
  | other (typeName : String)
  deriving DecidableEq

/-- The `type` tag of a parsed trigger. -/
def Trigger.typeName : Trigger → String
  | .block => "block"
  | .cron _ => "cron"
  | .event _ _ _ => "event"
  | .time _ => "time"
  | .other s => s

/-- `domains` of deploy.ts. -/
def domains : List String := ["mainnet", "gnosis"]

/-- `triggerTypeNames` of deploy.ts. -/
def triggerTypeNames : List String := ["block", "cron", "event", "time"]

/-- A parsed `DeploymentConfig`: `domain`, `args` (kept opaque as its
raw text), `secrets` (secret key to environment-variable name), and
the trigger. -/
structure DeploymentConfig where
  domain : String
  args : String
  secrets : List (String × String)
  trigger : Trigger
  deriving DecidableEq

/-- A config file on disk: its file name (ending in `.json`), its raw
bytes, and the result of `JSON.parse` on those bytes. -/
structure ConfigFile where
  fileName : String
  raw : Bytes
  parsed : DeploymentConfig
  deriving DecidableEq

/-- The read-only environment of a reconciliation run: the abstract
keccak256, `process.env`, and the parsed ABI files under `./abis`. -/
structure Env where
  keccak : Bytes → String
  envVars : String → Option String
  abiFiles : String → Option (List EventDef)

/-- The errors thrown inside the per-config loop of deploy.ts. -/
inductive DeployError where
  | abiFileMissing (abiName : String)
  | eventMissing (abiName eventName : String)
  | unknownTriggerType
  | missingSecretEnvVar (envVarName : String)
  deriving DecidableEq

/-- The vendor `TriggerConfig` payload produced by `createTriggerConfig`. -/
inductive TriggerConfig where
  | block
  | cron (cronExpr : String)
  | event (address : String) (topics : List (List String)) (blockConfirmations : Nat)
  | time (interval : Nat)
  deriving DecidableEq

/-- The event-topic resolution loop of `createTriggerConfig`: each
`{ abiName, eventName }` pair is resolved by loading the ABI file by
name and computing the event topic; a missing file or missing event
throws. -/
def resolveTopics (env : Env) : List EventTopicRef → Except DeployError (List String)
  | [] => .ok []
  | r :: rest =>
    match env.abiFiles r.abiName with
    | none => .error (.abiFileMissing r.abiName)
    | some abi =>
      match getEventTopic env.keccak abi r.eventName with
      | none => .error (.eventMissing r.abiName r.eventName)
      | some topic => (resolveTopics env rest).map (fun ts => topic :: ts)

/-- `createTriggerConfig` of deploy.ts.  The event branch groups all
resolved topics into a single inner OR-filter array and passes address
and blockConfirmations through. -/
def createTriggerConfig (env : Env) : Trigger → Except DeployError TriggerConfig
  | .block => .ok .block
  | .cron c => .ok (.cron c)
  | .event address refs blockConfirmations =>
    (resolveTopics env refs).map (fun ts => .event address [ts] blockConfirmations)
  | .time i => .ok (.time i)
  | .other _ => .error .unknownTriggerType

/-- The secrets `reduce` of deploy.ts: each secret key is looked up via
its environment-variable name; a falsy value (`undefined` or empty)
throws. -/
def resolveSecrets (envVars : String → Option String) :
    List (String × String) → Except DeployError (List (String × String))
  | [] => .ok []
  | (key, envVarName) :: rest =>
    match envVars envVarName with
    | none => .error (.missingSecretEnvVar envVarName)
    | some value =>
      if value = "" then .error (.missingSecretEnvVar envVarName)
      else (resolveSecrets envVars rest).map (fun s => (key, value) :: s)

/-- A `{ taskId, domain }` value of the `oldTasks` record. -/
structure TaskRef where
  taskId : String
  domain : String
  deriving DecidableEq

/-- The `oldTasks` working set: active tasks indexed by name. -/
abbrev TaskMap := List (String × TaskRef)

/-- Lookup `oldTasks[name]`. -/
def lookupTask : TaskMap → String → Option TaskRef
  | [], _ => none
  | (n, t) :: rest, name => if n = name then some t else lookupTask rest name

/-- `delete oldTasks[name]`. -/
def eraseTask (m : TaskMap) (name : String) : TaskMap :=
  m.filter (fun p => p.1 != name)

/-- The key set of the working set. -/
def taskKeys (m : TaskMap) : List String := m.map Prod.fst

/-- The derived task name of a config file: `<config-label> <hash>`
where the label is the file name without its `.json` suffix. -/
def deploymentNameOf (env : Env) (ipfsHash : String) (cf : ConfigFile) : String :=
  jsSliceDropRight cf.fileName 5 ++ " " ++ createHash env.keccak cf.raw ipfsHash

/-- The observable effects of a run: console diagnostics and the vendor
SDK calls (create-task, secret-set, cancel-task). -/
inductive Action where
  | log (message : String)
  | createTask (domain name ipfsHash args : String) (trigger : TriggerConfig)
  | setSecrets (domain : String) (secrets : List (String × String))
  | cancelTask (domain taskId : String)
  deriving DecidableEq

def Action.isCreateTask : Action → Bool
  | .createTask _ _ _ _ _ => true
  | _ => false

def Action.isCancelTask : Action → Bool
  | .cancelTask _ _ => true
  | _ => false

def Action.isLog : Action → Bool
  | .log _ => true
  | _ => false

/-- The body of the per-config loop of deploy.ts: membership checks on
domain and trigger type (skip with a diagnostic), then the derived-name
match against the working set (remove and skip), otherwise trigger
translation, secret resolution (both may throw) and the create-task /
secret-set SDK calls. -/
def processConfig (env : Env) (ipfsHash : String) (oldTasks : TaskMap) (cf : ConfigFile) :
    Except DeployError (TaskMap × List Action) :=
  let config := cf.parsed
  if ¬ domains.contains config.domain then
    .ok (oldTasks, [.log ("Domain " ++ config.domain ++ " is not supported")])
  else if ¬ triggerTypeNames.contains config.trigger.typeName then
    .ok (oldTasks, [.log ("Trigger type " ++ config.trigger.typeName ++ " is not supported")])
  else
    let deploymentName := deploymentNameOf env ipfsHash cf
    match lookupTask oldTasks deploymentName with
    | some _ =>
      .ok (eraseTask oldTasks deploymentName,
        [.log ("Task " ++ deploymentName ++ " is already active")])
    | none =>
      match createTriggerConfig env config.trigger with
      | .error e => .error e
      | .ok triggerConfig =>
        match resolveSecrets env.envVars config.secrets with
        | .error e => .error e
        | .ok secrets =>
          .ok (oldTasks,
            [.log ("Deploying " ++ deploymentName),
             .createTask config.domain deploymentName ipfsHash config.args triggerConfig,
             .setSecrets config.domain secrets])

/-- The inner `for configFileName of configFileNames` loop; a thrown
error aborts the whole run (there is no try/catch in the source). -/
def processConfigs (env : Env) (ipfsHash : String) :
    TaskMap → List ConfigFile → Except DeployError (TaskMap × List Action)
  | m, [] => .ok (m, [])
  | m, cf :: rest =>
    match processConfig env ipfsHash m cf with
    | .error e => .error e
    | .ok (m2, acts) =>
      match processConfigs env ipfsHash m2 rest with
      | .error e => .error e
      | .ok (m3, acts2) => .ok (m3, acts ++ acts2)

/-- One keeper-type directory under `./web3-functions`: its name,
whether a config directory of the same name exists
(`w3fConfigs.includes(w3fName)`), and its listed `.json` config files. -/
structure Keeper where
  name : String
  hasConfigDir : Bool
  configFiles : List ConfigFile
  deriving DecidableEq

/-- The body of the outer `for w3fName of w3fNames` loop: skip keepers
without a config directory, without a truthy IPFS content-address, or
without config files; otherwise process each config file. -/
def processKeeper (env : Env) (ipfs : String → Option String) (m : TaskMap) (k : Keeper) :
    Except DeployError (TaskMap × List Action) :=
  if ¬ k.hasConfigDir then .ok (m, [.log ("No configs for " ++ k.name)])
  else if ¬ jsTruthy (ipfs k.name) then .ok (m, [.log ("No IPFS deployment for " ++ k.name)])
  else if k.configFiles.isEmpty then .ok (m, [.log ("No configs for " ++ k.name)])
  else
    match processConfigs env ((ipfs k.name).getD "") m k.configFiles with
    | .error e => .error e
    | .ok (m2, acts) => .ok (m2, .log ("Deploying " ++ k.name) :: acts)

/-- The outer loop over every keeper-type directory. -/
def processKeepers (env : Env) (ipfs : String → Option String) :
    TaskMap → List Keeper → Except DeployError (TaskMap × List Action)
  | m, [] => .ok (m, [])
  | m, k :: rest =>
    match processKeeper env ipfs m k with
    | .error e => .error e
    | .ok (m2, acts) =>
      match processKeepers env ipfs m2 rest with
      | .error e => .error e
      | .ok (m3, acts2) => .ok (m3, acts ++ acts2)

/-- The final cancellation pass: every entry left in the working set is
cancelled. -/
def cancelActions (m : TaskMap) : List Action :=
  m.flatMap (fun p => [.log ("Cancelling task " ++ p.1), .cancelTask p.2.domain p.2.taskId])

/-- A whole reconciliation run of deploy.ts: the keeper loops followed
by the cancellation pass, producing the trace of actions (or the error
that aborted the run). -/
def reconcile (env : Env) (ipfs : String → Option String) (keepers : List Keeper)
    (oldTasks0 : TaskMap) : Except DeployError (List Action) :=
  match processKeepers env ipfs oldTasks0 keepers with
  | .error e => .error e
  | .ok (m, acts) => .ok (acts ++ cancelActions m)

/-- A config file passes the domain and trigger-type membership checks. -/
def configAccepted (cf : ConfigFile) : Bool :=
  domains.contains cf.parsed.domain && triggerTypeNames.contains cf.parsed.trigger.typeName

/-- A keeper reaches its per-config loop: it has a config directory, a
truthy IPFS content-address and at least one config file. -/
def keeperActive (ipfs : String → Option String) (k : Keeper) : Bool :=
  k.hasConfigDir && jsTruthy (ipfs k.name) && !k.configFiles.isEmpty

/-- The derived deployment names a keeper contributes to a run. -/
def keeperDerivedNames (env : Env) (ipfs : String → Option String) (k : Keeper) : List String :=
  if keeperActive ipfs k then
    (k.configFiles.filter configAccepted).map (deploymentNameOf env ((ipfs k.name).getD ""))
  else []

/-- All derived deployment names of a run. -/
def derivedNames (env : Env) (ipfs : String → Option String) (keepers : List Keeper) :
    List String :=
  keepers.flatMap (keeperDerivedNames env ipfs)

/-- Remove a list of names from the working set, in order. -/
def eraseAll (m : TaskMap) (names : List String) : TaskMap :=
  names.foldl eraseTask m

/-- The derived names of the config files of one keeper, given its IPFS
content-address. -/
def acceptedNames (env : Env) (ipfsHash : String) (cfs : List ConfigFile) : List String :=
  (cfs.filter configAccepted).map (deploymentNameOf env ipfsHash)

/-- The topic an event-filter entry resolves to: load the ABI by name,
then look the event up in it. -/
def resolvedTopic (env : Env) (r : EventTopicRef) : Option String :=
  (env.abiFiles r.abiName).bind (fun abi => getEventTopic env.keccak abi r.eventName)

/-- `raw2` is `raw` with a single byte changed. -/
def differOneByte (raw raw2 : Bytes) : Prop :=
  ∃ pre a b post, a ≠ b ∧ raw = pre ++ a :: post ∧ raw2 = pre ++ b :: post

end Deploy

namespace Enc

/-- A run of `n` letters `a`. -/
def unaryChars : Nat → List Char
  | 0 => []
  | n + 1 => 'a' :: unaryChars n

/-- A prefix-free encoding of byte lists: each byte `b` becomes the
letter `x` followed by `b` letters `a`. -/
def encChars : Bytes → List Char
  | [] => []
  | b :: rest => 'x' :: (unaryChars b ++ encChars rest)

/-- An injective concrete hash-shaped function `Bytes → String`, used
to instantiate the abstract keccak256 parameter on concrete inputs. -/
def encStr (bs : Bytes) : String := ⟨encChars bs⟩

end Enc

namespace Identity

/-- JavaScript `s.slice(0, -1)`: drop the final character of the
string (the trailing newline of a well-formed password file, but the
final character whatever it is). -/
def jsSliceDropLastChar (s : String) : String := ⟨s.data.dropLast⟩

/-- Modelled from the words of the spec sentence of claim C7 only, for
comparison with the source: remove a trailing newline if the string
ends with one, and leave the string unchanged otherwise. -/
def stripTrailingNewline (s : String) : String :=
  if s.data.getLast? = some '\n' then ⟨s.data.dropLast⟩ else s

/-- `retrievePrivateKeyFromKeystore` of deploy.ts.  `readFile` models
`fs.readFileSync` (`none` throws ENOENT) and `decrypt` models
`Wallet.fromEncryptedJsonSync` (`none` throws on a wrong password). -/
def retrievePrivateKeyFromKeystore (readFile : String → Option String)
    (decrypt : String → String → Option String)
    (keystorePath passwordPath : String) : Except String String :=
  match (if passwordPath != "" then
          match readFile passwordPath with
          | none => Except.error ("ENOENT: " ++ passwordPath)
          | some contents => Except.ok (jsSliceDropLastChar contents)
         else Except.ok "") with
  | .error e => .error e
  | .ok password =>
    match readFile keystorePath with
    | none => .error ("ENOENT: " ++ keystorePath)
    | some keystore =>
      match decrypt keystore password with
      | none => .error "invalid password"
      | some privateKey => .ok privateKey

/-- The expression
`envPrivateKey || (keystorePath && passwordPath && retrievePrivateKeyFromKeystore(...))`
with JavaScript short-circuit semantics: the value of `||` is its first
truthy operand, the value of `&&` is its first falsy operand, and the
keystore is only read when both paths are truthy. -/
def deployerKeyExpr (readFile : String → Option String)
    (decrypt : String → String → Option String)
    (envPrivateKey keystorePath passwordPath : Option String) :
    Except String (Option String) :=
  if jsTruthy envPrivateKey then .ok envPrivateKey
  else if ¬ jsTruthy keystorePath then .ok keystorePath
  else if ¬ jsTruthy passwordPath then .ok passwordPath
  else
    match retrievePrivateKeyFromKeystore readFile decrypt
        (keystorePath.getD "") (passwordPath.getD "") with
    | .error e => .error e
    | .ok k => .ok (some k)

/-- The identity resolution of deploy.ts:
`if (!deployerPrivateKey) throw new Error("Private key is not configured")`,
evaluated before any wallet or SDK is constructed. -/
def resolveDeployerKey (readFile : String → Option String)
    (decrypt : String → String → Option String)
    (envPrivateKey keystorePath passwordPath : Option String) : Except String String :=
  match deployerKeyExpr readFile decrypt envPrivateKey keystorePath passwordPath with
  | .error e => .error e
  | .ok pk => if jsTruthy pk then .ok (pk.getD "") else .error "Private key is not configured"

/-- Modelled from the words of the spec sentence of claim C7 only, for
comparison with the source resolver: identical control flow, but the
password is the file contents with a trailing newline stripped (rather
than the final character dropped unconditionally). -/
def resolveDeployerKeySpec (readFile : String → Option String)
    (decrypt : String → String → Option String)
    (envPrivateKey keystorePath passwordPath : Option String) : Except String String :=
  if jsTruthy envPrivateKey then .ok (envPrivateKey.getD "")
  else if jsTruthy keystorePath ∧ jsTruthy passwordPath then
    match readFile (passwordPath.getD "") with
    | none => .error ("ENOENT: " ++ passwordPath.getD "")
    | some contents =>
      match readFile (keystorePath.getD "") with
      | none => .error ("ENOENT: " ++ keystorePath.getD "")
      | some keystore =>
        match decrypt keystore (stripTrailingNewline contents) with
        | none => .error "invalid password"
        | some privateKey =>
          if privateKey != "" then .ok privateKey
          else .error "Private key is not configured"
  else .error "Private key is not configured"

end Identity

namespace DeployAll

/-- JavaScript `s.slice(start, stop)` for non-negative indices. -/
def jsSlice (s : String) (start stop : Nat) : String :=
  ⟨(s.data.take stop).drop start⟩

/-- The date-time tag appended to every task name created by
deployAll.ts: a space, then `<`, the date part and the time part of the
ISO string separated by a space, then `>`. -/
def mkDeploymentTag (deploymentDate : String) : String :=
  " <" ++ jsSlice deploymentDate 0 10 ++ " " ++ jsSlice deploymentDate 11 19 ++ ">"

/-- An active task as returned by `getActiveTasks`. -/
structure ActiveTask where
  name : String
  taskId : String
  deriving DecidableEq

/-- The filter of `retirePreviouslyDeployedTasks`: the active tasks
whose name, with its final `deploymentTag.length` characters removed,
is one of the supplied base task names.  Each task in this list is then
cancelled. -/
def tasksToRetire (deploymentTag : String) (activeTasks : List ActiveTask)
    (taskNames : List String) : List ActiveTask :=
  activeTasks.filter (fun task => taskNames.contains (jsSliceDropRight task.name deploymentTag.length))

/-- The `deploy` helper of deployAll.ts, acting on the deployed-state
map loaded from `deployments.json`.  The result is the new map, whether
`writeFileSync` ran, and the error of a throwing `deploymentLogic` (the
exception propagates; the write only happens after the logic
completes). -/
def deploy (ipfsDeployments : List (String × String)) (gelatoDeployments : List (String × String))
    (w3fName : String) (deploymentLogic : String → Except String Unit) :
    List (String × String) × Bool × Option String :=
  match ipfsDeployments.lookup w3fName with
  | none => (gelatoDeployments, false, none)
  | some ipfsDeployment =>
    if gelatoDeployments.lookup w3fName = some ipfsDeployment then
      (gelatoDeployments, false, none)
    else
      match deploymentLogic ipfsDeployment with
      | .error e => (gelatoDeployments, false, some e)
      | .ok _ =>
        ((w3fName, ipfsDeployment) ::
            gelatoDeployments.filter (fun p => p.1 != w3fName), true, none)

end DeployAll

namespace XChainOracleTicker

/-- The decoded `getLastSeenPotData` result of a DSR forwarder: the
last-seen rate `dsr` and the last-update timestamp `rho`. -/
structure PotData where
  dsr : Int
  rho : Int
  deriving DecidableEq

/-- A downstream consumer: a domain alias and its forwarder contract
address. -/
structure Consumer where
  domain : String
  forwarder : String
  deriving DecidableEq

/-- The calldata of a proposed call: `refresh(gasLimit)` for
optimism-style forwarders, `refresh(gasLimit, maxFeePerGas, baseFee)`
for arbitrum-style forwarders. -/
inductive CallData where
  | refreshOpt (gasLimit : Int)
  | refreshArb (gasLimit maxFeePerGas baseFee : Int)
  deriving DecidableEq

/-- One entry of `callsToExecute`; `toAddr` is the `to` field of the
source object. -/
structure CallToExec where
  toAddr : String
  data : CallData
  deriving DecidableEq

/-- The value returned by the handler. -/
inductive RunResult where
  | noExec (message : String)
  | exec (callData : List CallToExec)
  deriving DecidableEq

/-- The ambient data of one handler invocation: user args, the current
rate and latest block timestamp read on mainnet, the set of supported
arbitrum domains and the fee estimates read per arbitrum forwarder. -/
structure OracleEnv where
  maxDelta : Int
  gasLimit : Int
  currentDsr : Int
  latestTimestamp : Int
  arbSupported : String → Bool
  arbMaxFeePerGas : String → Int
  arbBaseFee : String → Int

/-- The staleness test of the handler:
`BigInt(dsr) != BigInt(currentDsr) || BigInt(latestTimestamp) > BigInt(rho) + maxDelta`. -/
def isStale (e : OracleEnv) (pd : PotData) : Bool :=
  (pd.dsr != e.currentDsr) || decide (e.latestTimestamp > pd.rho + e.maxDelta)

/-- The optimism-style loop: each consumer consumes the next multicall
result (decoding an exhausted result list throws), and a stale consumer
contributes one `refresh(gasLimit)` call targeting its forwarder. -/
def optLoop (e : OracleEnv) :
    List Consumer → List PotData → Except String (List CallToExec × List PotData)
  | [], results => .ok ([], results)
  | c :: rest, results =>
    match results with
    | [] => .error "decoding error"
    | pd :: results2 =>
      match optLoop e rest results2 with
      | .error err => .error err
      | .ok (calls, resultsOut) =>
        if isStale e pd then
          .ok ({ toAddr := c.forwarder, data := .refreshOpt e.gasLimit } :: calls, resultsOut)
        else .ok (calls, resultsOut)

/-- The arbitrum-style loop: a consumer whose forwarder has no
configured domain URL is skipped without consuming a multicall result;
otherwise the next result is consumed and a stale consumer contributes
one `refresh(gasLimit, maxFeePerGas, baseFee)` call targeting its
forwarder. -/
def arbLoop (e : OracleEnv) :
    List Consumer → List PotData → Except String (List CallToExec × List PotData)
  | [], results => .ok ([], results)
  | c :: rest, results =>
    if ¬ e.arbSupported c.forwarder then arbLoop e rest results
    else
      match results with
      | [] => .error "decoding error"
      | pd :: results2 =>
        match arbLoop e rest results2 with
        | .error err => .error err
        | .ok (calls, resultsOut) =>
          if isStale e pd then
            .ok ({ toAddr := c.forwarder,
                   data := .refreshArb e.gasLimit (e.arbMaxFeePerGas c.forwarder)
                     (e.arbBaseFee c.forwarder) } :: calls, resultsOut)
          else .ok (calls, resultsOut)

/-- The whole decision logic of the xchain-oracle-ticker handler: the
optimism-style loop, then the arbitrum-style loop over the remaining
multicall results; an empty `callsToExecute` yields
`canExec: false` with the no-action message, otherwise the bundle of
proposed calls is returned. -/
def onRun (e : OracleEnv) (optConsumers arbConsumers : List Consumer)
    (results : List PotData) : Except String RunResult :=
  match optLoop e optConsumers results with
  | .error err => .error err
  | .ok (optCalls, results2) =>
    match arbLoop e arbConsumers results2 with
    | .error err => .error err
    | .ok (arbCalls, _) =>
      let callsToExecute := optCalls ++ arbCalls
      if callsToExecute.isEmpty then .ok (.noExec "Pot data refresh not needed")
      else .ok (.exec callsToExecute)

end XChainOracleTicker

namespace Scenario

/-- A concrete environment for witnesses: a constant hash, no
environment variables set, no ABI files on disk. -/
def envConst : Deploy.Env :=
  { keccak := fun _ => "H", envVars := fun _ => none, abiFiles := fun _ => none }

/-- A concrete accepted config file with a block trigger and one
secret mapping. -/
def cfBlock : Deploy.ConfigFile :=
  { fileName := "main.json", raw := [1],
    parsed := { domain := "mainnet", args := "", secrets := [("KEY", "ENV_KEY")],
                trigger := .block } }

/-- A concrete keeper directory holding `cfBlock`. -/
def keeperDemo : Deploy.Keeper :=
  { name := "demo", hasConfigDir := true, configFiles := [cfBlock] }

/-- A concrete code-deployment index publishing a content-address for
`keeperDemo` only. -/
def ipfsDemo : String → Option String := fun n => if n = "demo" then some "Qm" else none

/-- The working set after a completed run for `keeperDemo`: exactly the
derived deployment name of `cfBlock`. -/
def oldTasksDemo : Deploy.TaskMap := [("main H", { taskId := "task1", domain := "mainnet" })]

/-- A concrete config file with an unsupported domain value. -/
def cfBadDomain : Deploy.ConfigFile :=
  { fileName := "opt.json", raw := [2],
    parsed := { domain := "optimism", args := "", secrets := [], trigger := .block } }

/-- A concrete accepted config file whose secret refers to an unset
environment variable. -/
def cfMissingSecret : Deploy.ConfigFile :=
  { fileName := "bad.json", raw := [3],
    parsed := { domain := "mainnet", args := "", secrets := [("KEY", "MY_SECRET")],
                trigger := .block } }

/-- A keeper whose first config throws on its missing secret and whose
second config would otherwise be deployable. -/
def keeperTwoConfigs : Deploy.Keeper :=
  { name := "demo", hasConfigDir := true, configFiles := [cfMissingSecret, cfBlock] }

/-- The witness environment with the injective concrete hash. -/
def envEnc : Deploy.Env :=
  { keccak := Enc.encStr, envVars := fun _ => none, abiFiles := fun _ => none }

/-- A minimal accepted deployment config: no secrets, block trigger. -/
def dcSimple : Deploy.DeploymentConfig :=
  { domain := "mainnet", args := "", secrets := [], trigger := .block }

/-- A concrete parsed ABI file holding the `AnswerUpdated` event. -/
def abiAgg : List Deploy.EventDef :=
  [{ name := "AnswerUpdated", paramTypes := ["int256", "uint256", "uint256"] }]

/-- A witness environment whose file system holds exactly the
`Aggregator` ABI file. -/
def envAbi : Deploy.Env :=
  { keccak := Enc.encStr, envVars := fun _ => none,
    abiFiles := fun n => if n = "Aggregator" then some abiAgg else none }

/-- An event-filter entry that resolves against `abiAgg`. -/
def refAgg : Deploy.EventTopicRef := { abiName := "Aggregator", eventName := "AnswerUpdated" }

/-- An event-filter entry whose ABI file does not exist. -/
def refMissing : Deploy.EventTopicRef := { abiName := "Nope", eventName := "AnswerUpdated" }

/-- A file system whose password file does not end in a newline. -/
def readFileC7 : String → Option String :=
  fun p => if p = "pw" then some "abc" else if p = "ks" then some "KS" else none

/-- A decryption oracle distinguishing the password with and without
its final character. -/
def decryptC7 : String → String → Option String :=
  fun ks pw =>
    if ks = "KS" then
      if pw = "ab" then some "K2" else if pw = "abc" then some "K1" else none
    else none

/-- A file system whose password file ends in a newline. -/
def readFileC7n : String → Option String :=
  fun p => if p = "pw" then some "secret\n" else if p = "ks" then some "KS" else none

/-- A decryption oracle accepting the newline-stripped password. -/
def decryptC7n : String → String → Option String :=
  fun ks pw =>
    if ks = "KS" then (if pw = "secret" then some "0xkey" else none) else none

/-- A concrete pre-deployments (IPFS) index for the all-in-one script. -/
def ipfsAll : List (String × String) := [("a", "QmA"), ("b", "QmB"), ("c", "QmC")]

/-- A concrete deployed-state map recording keeper `b` as already
deployed at its current content-address. -/
def stAll : List (String × String) := [("b", "QmB")]

/-- A deployment logic that throws. -/
def logicFail : String → Except String Unit := fun _ => .error "boom"

/-- A deployment logic that completes. -/
def logicOk : String → Except String Unit := fun _ => .ok ()

/-- Concrete active tasks for the retirement filter: two tagged
generations of the same base name, one other keeper task and one
foreign task. -/
def activeTasksDemo : List DeployAll.ActiveTask :=
  [{ name := "Cap Automator <2024-01-02 03:04:05>", taskId := "t1" },
   { name := "Cap Automator <2023-12-31 23:59:59>", taskId := "t2" },
   { name := "D3M Ticker <2024-01-02 03:04:05>", taskId := "t3" },
   { name := "Unrelated Keeper <2024-01-02 03:04:05>", taskId := "t4" }]

/-- A concrete handler invocation context: current rate 5, latest block
timestamp 1000, a one-hundred-second staleness allowance. -/
def oracleEnv : XChainOracleTicker.OracleEnv :=
  { maxDelta := 100, gasLimit := 800000, currentDsr := 5, latestTimestamp := 1000,
    arbSupported := fun _ => false, arbMaxFeePerGas := fun _ => 0, arbBaseFee := fun _ => 0 }

/-- A concrete optimism-style consumer. -/
def consumerOpt : XChainOracleTicker.Consumer := { domain := "optimism", forwarder := "0xF1" }

end Scenario

/-
Lemma layer.
-/

namespace Enc

theorem encChars_shape (bs : Bytes) : encChars bs = [] ∨ ∃ t, encChars bs = 'x' :: t := by
  cases bs with
  | nil => exact Or.inl rfl
  | cons b rest => exact Or.inr ⟨_, rfl⟩

theorem enc_aux : ∀ (b c : Nat) (r s : Bytes),
    unaryChars b ++ encChars r = unaryChars c ++ encChars s →
    b = c ∧ encChars r = encChars s := by
  intro b
  induction b with
  | zero =>
    intro c r s h
    cases c with
    | zero => exact ⟨rfl, by simpa [unaryChars] using h⟩
    | succ c =>
      exfalso
      rcases encChars_shape r with h0 | ⟨t, ht⟩
      · rw [h0] at h; simp [unaryChars] at h
      · rw [ht] at h; simp [unaryChars] at h
  | succ b ih =>
    intro c r s h
    cases c with
    | zero =>
      exfalso
      rcases encChars_shape s with h0 | ⟨t, ht⟩
      · rw [h0] at h; simp [unaryChars] at h
      · rw [ht] at h; simp [unaryChars] at h
    | succ c =>
      simp only [unaryChars, List.cons_append, List.cons.injEq, true_and] at h
      obtain ⟨hb, hrs⟩ := ih c r s h
      exact ⟨by omega, hrs⟩

theorem encChars_injective : ∀ (l l2 : Bytes), encChars l = encChars l2 → l = l2
  | [], [], _ => rfl
  | [], _ :: _, h => absurd h (by simp [encChars])
  | _ :: _, [], h => absurd h (by simp [encChars])
  | a :: r, b :: s, h => by
    simp only [encChars, List.cons.injEq, true_and] at h
    obtain ⟨hab, hrs⟩ := enc_aux a b r s h
    obtain rfl := hab
    obtain rfl := encChars_injective r s hrs
    rfl

theorem encStr_injective : Function.Injective encStr := by
  intro l l2 h
  exact encChars_injective _ _ (congrArg String.data h)

end Enc

namespace Deploy

theorem char_toNat_injective : Function.Injective Char.toNat :=
  Function.LeftInverse.injective Char.ofNat_toNat

theorem getBufferFromString_injective : Function.Injective getBufferFromString := by
  intro s t h
  apply String.ext
  exact (List.map_injective_iff.mpr char_toNat_injective) h

theorem string_append_right_cancel {a b c : String} (h : a ++ c = b ++ c) : a = b := by
  apply String.ext
  have hd : a.data ++ c.data = b.data ++ c.data := by
    have ha := congrArg String.data h
    simpa [String.data_append] using ha
  exact List.append_cancel_right hd

theorem string_append_left_cancel {a b c : String} (h : c ++ a = c ++ b) : a = b := by
  apply String.ext
  have hd : c.data ++ a.data = c.data ++ b.data := by
    have ha := congrArg String.data h
    simpa [String.data_append] using ha
  exact List.append_cancel_left hd

/-- With a collision-free hash, distinct raw config bytes give distinct
identity hashes (for a fixed content-address). -/
theorem createHash_ne (keccak : Bytes → String) (hinj : Function.Injective keccak)
    {raw raw2 : Bytes} (hne : raw ≠ raw2) (ipfsDeployment : String) :
    createHash keccak raw ipfsDeployment ≠ createHash keccak raw2 ipfsDeployment := by
  intro h
  apply hne
  have h1 := getBufferFromString_injective (hinj h)
  have h2 := string_append_right_cancel h1
  exact hinj h2

/-- Changing a single byte changes the byte list. -/
theorem differOneByte_ne {raw raw2 : Bytes} (h : differOneByte raw raw2) : raw ≠ raw2 := by
  obtain ⟨pre, a, b, post, hab, h1, h2⟩ := h
  intro he
  rw [h1, h2] at he
  have h3 : a :: post = b :: post := List.append_cancel_left he
  exact hab (List.cons.inj h3).1

theorem lookupTask_isSome_of_mem :
    ∀ (m : TaskMap) (name : String), name ∈ taskKeys m → ∃ t, lookupTask m name = some t := by
  intro m
  induction m with
  | nil => intro name h; simp [taskKeys] at h
  | cons p rest ih =>
    intro name h
    by_cases hp : p.1 = name
    · exact ⟨p.2, by simp [lookupTask, hp]⟩
    · obtain ⟨t, ht⟩ := ih name (by
        simp only [taskKeys, List.map_cons, List.mem_cons] at h
        exact h.resolve_left (fun he => hp he.symm))
      exact ⟨t, by simp [lookupTask, hp, ht]⟩

theorem lookupTask_eq_none_of_not_mem :
    ∀ (m : TaskMap) (name : String), name ∉ taskKeys m → lookupTask m name = none := by
  intro m
  induction m with
  | nil => intro name _; rfl
  | cons p rest ih =>
    intro name h
    simp only [taskKeys, List.map_cons, List.mem_cons, not_or] at h
    have hp : ¬ p.1 = name := fun he => h.1 he.symm
    simp [lookupTask, hp, ih name h.2]

theorem mem_taskKeys_eraseTask (m : TaskMap) (n n2 : String) :
    n2 ∈ taskKeys (eraseTask m n) ↔ n2 ∈ taskKeys m ∧ n2 ≠ n := by
  induction m with
  | nil => simp [taskKeys, eraseTask]
  | cons p rest ih =>
    by_cases hp : p.1 = n
    · have hstep : eraseTask (p :: rest) n = eraseTask rest n := by
        simp [eraseTask, List.filter_cons, hp]
      rw [hstep, ih]
      subst hp
      simp only [taskKeys, List.map_cons, List.mem_cons]
      constructor
      · rintro ⟨hm, hne⟩; exact ⟨Or.inr hm, hne⟩
      · rintro ⟨h | hm, hne⟩
        · exact absurd h hne
        · exact ⟨hm, hne⟩
    · have hstep : eraseTask (p :: rest) n = p :: eraseTask rest n := by
        simp [eraseTask, List.filter_cons, bne_iff_ne, hp]
      rw [hstep]
      simp only [taskKeys, List.map_cons, List.mem_cons] at ih ⊢
      rw [ih]
      constructor
      · rintro (h | ⟨hm, hne⟩)
        · exact ⟨Or.inl h, fun he => hp (h.symm.trans he ▸ rfl)⟩
        · exact ⟨Or.inr hm, hne⟩
      · rintro ⟨h | hm, hne⟩
        · exact Or.inl h
        · exact Or.inr ⟨hm, hne⟩

theorem taskKeys_eq_nil (m : TaskMap) (h : ∀ n, n ∉ taskKeys m) : m = [] := by
  cases m with
  | nil => rfl
  | cons p rest => exact absurd (by simp [taskKeys]) (h p.1)

theorem eraseAll_nil (m : TaskMap) : eraseAll m [] = m := rfl

theorem eraseAll_cons (m : TaskMap) (n : String) (ns : List String) :
    eraseAll m (n :: ns) = eraseAll (eraseTask m n) ns := rfl

theorem eraseAll_append (m : TaskMap) (ns ns2 : List String) :
    eraseAll m (ns ++ ns2) = eraseAll (eraseAll m ns) ns2 :=
  List.foldl_append eraseTask m ns ns2

theorem mem_taskKeys_eraseAll (ns : List String) :
    ∀ (m : TaskMap) (n : String), n ∈ taskKeys (eraseAll m ns) ↔ n ∈ taskKeys m ∧ n ∉ ns := by
  induction ns with
  | nil => intro m n; simp [eraseAll_nil]
  | cons n0 rest ih =>
    intro m n
    rw [eraseAll_cons, ih, mem_taskKeys_eraseTask]
    simp only [List.mem_cons, not_or]
    tauto

theorem configAccepted_true {cf : ConfigFile} (h : configAccepted cf = true) :
    cf.parsed.domain ∈ domains ∧ cf.parsed.trigger.typeName ∈ triggerTypeNames := by
  simpa [configAccepted, Bool.and_eq_true] using h

theorem processConfig_matched (env : Env) (ipfsHash : String) (m : TaskMap) (cf : ConfigFile)
    (t : TaskRef) (hacc : configAccepted cf = true)
    (hlk : lookupTask m (deploymentNameOf env ipfsHash cf) = some t) :
    processConfig env ipfsHash m cf =
      .ok (eraseTask m (deploymentNameOf env ipfsHash cf),
        [.log ("Task " ++ deploymentNameOf env ipfsHash cf ++ " is already active")]) := by
  obtain ⟨h1, h2⟩ := configAccepted_true hacc
  simp [processConfig, h1, h2, hlk]

theorem processConfig_skip (env : Env) (ipfsHash : String) (m : TaskMap) (cf : ConfigFile)
    (hacc : configAccepted cf = false) :
    ∃ msg, processConfig env ipfsHash m cf = .ok (m, [.log msg]) := by
  by_cases hd : cf.parsed.domain ∈ domains
  · have ht : cf.parsed.trigger.typeName ∉ triggerTypeNames := by
      have h2 := hacc
      simp only [configAccepted, Bool.and_eq_false_iff] at h2
      rcases h2 with h2 | h2
      · exact absurd hd (by simpa using h2)
      · simpa using h2
    exact ⟨"Trigger type " ++ cf.parsed.trigger.typeName ++ " is not supported",
      by simp [processConfig, hd, ht]⟩
  · exact ⟨"Domain " ++ cf.parsed.domain ++ " is not supported",
      by simp [processConfig, hd]⟩

theorem acceptedNames_cons_true (env : Env) (ipfsHash : String) (cf : ConfigFile)
    (rest : List ConfigFile) (hacc : configAccepted cf = true) :
    acceptedNames env ipfsHash (cf :: rest) =
      deploymentNameOf env ipfsHash cf :: acceptedNames env ipfsHash rest := by
  simp [acceptedNames, List.filter_cons, hacc]

theorem acceptedNames_cons_false (env : Env) (ipfsHash : String) (cf : ConfigFile)
    (rest : List ConfigFile) (hacc : configAccepted cf = false) :
    acceptedNames env ipfsHash (cf :: rest) = acceptedNames env ipfsHash rest := by
  simp [acceptedNames, List.filter_cons, hacc]

/-- Every config whose derived name sits in the working set is matched
and merely removed; processing only logs and never issues an SDK call. -/
theorem processConfigs_matched (env : Env) (ipfsHash : String) (cfs : List ConfigFile) :
    ∀ m : TaskMap,
      (∀ n ∈ acceptedNames env ipfsHash cfs, n ∈ taskKeys m) →
      (acceptedNames env ipfsHash cfs).Nodup →
      ∃ acts, processConfigs env ipfsHash m cfs =
          .ok (eraseAll m (acceptedNames env ipfsHash cfs), acts) ∧
        ∀ a ∈ acts, a.isLog = true := by
  induction cfs with
  | nil =>
    intro m _ _
    exact ⟨[], rfl, by simp⟩
  | cons cf rest ih =>
    intro m hsub hnd
    by_cases hacc : configAccepted cf
    · rw [acceptedNames_cons_true env ipfsHash cf rest hacc] at hsub hnd ⊢
      obtain ⟨t, ht⟩ := lookupTask_isSome_of_mem m (deploymentNameOf env ipfsHash cf)
        (hsub _ (List.mem_cons_self _ _))
      have hpc := processConfig_matched env ipfsHash m cf t hacc ht
      have hsub2 : ∀ n ∈ acceptedNames env ipfsHash rest,
          n ∈ taskKeys (eraseTask m (deploymentNameOf env ipfsHash cf)) := by
        intro n hn
        rw [mem_taskKeys_eraseTask]
        refine ⟨hsub n (List.mem_cons_of_mem _ hn), ?_⟩
        intro he
        exact (List.nodup_cons.mp hnd).1 (he ▸ hn)
      obtain ⟨acts, hrec, hlog⟩ :=
        ih (eraseTask m (deploymentNameOf env ipfsHash cf)) hsub2 (List.nodup_cons.mp hnd).2
      refine ⟨.log ("Task " ++ deploymentNameOf env ipfsHash cf ++ " is already active") :: acts,
        ?_, ?_⟩
      · simp [processConfigs, hpc, hrec, eraseAll_cons]
      · intro a ha
        rcases List.mem_cons.mp ha with rfl | ha2
        · rfl
        · exact hlog a ha2
    · have hacc2 : configAccepted cf = false := by simpa using hacc
      rw [acceptedNames_cons_false env ipfsHash cf rest hacc2] at hsub hnd ⊢
      obtain ⟨msg, hpc⟩ := processConfig_skip env ipfsHash m cf hacc2
      obtain ⟨acts, hrec, hlog⟩ := ih m hsub hnd
      refine ⟨.log msg :: acts, ?_, ?_⟩
      · simp [processConfigs, hpc, hrec]
      · intro a ha
        rcases List.mem_cons.mp ha with rfl | ha2
        · rfl
        · exact hlog a ha2

theorem keeperDerivedNames_active (env : Env) (ipfs : String → Option String) (k : Keeper)
    (h : keeperActive ipfs k = true) :
    keeperDerivedNames env ipfs k = acceptedNames env ((ipfs k.name).getD "") k.configFiles := by
  simp [keeperDerivedNames, h, acceptedNames]

theorem keeperDerivedNames_inactive (env : Env) (ipfs : String → Option String) (k : Keeper)
    (h : keeperActive ipfs k = false) : keeperDerivedNames env ipfs k = [] := by
  simp [keeperDerivedNames, h]

theorem processKeeper_inactive (env : Env) (ipfs : String → Option String) (m : TaskMap)
    (k : Keeper) (h : keeperActive ipfs k = false) :
    ∃ msg, processKeeper env ipfs m k = .ok (m, [.log msg]) := by
  by_cases h1 : k.hasConfigDir
  · by_cases h2 : jsTruthy (ipfs k.name)
    · have h3 : k.configFiles.isEmpty = true := by
        simpa [keeperActive, h1, h2] using h
      exact ⟨"No configs for " ++ k.name, by simp [processKeeper, h1, h2, h3]⟩
    · exact ⟨"No IPFS deployment for " ++ k.name, by simp [processKeeper, h1, h2]⟩
  · exact ⟨"No configs for " ++ k.name, by simp [processKeeper, h1]⟩

/-- When every derived name of the run sits in the working set (and the
derived names are distinct), the keeper loops only log, removing
exactly the derived names from the working set. -/
theorem processKeepers_matched (env : Env) (ipfs : String → Option String) (ks : List Keeper) :
    ∀ m : TaskMap,
      (∀ n ∈ derivedNames env ipfs ks, n ∈ taskKeys m) →
      (derivedNames env ipfs ks).Nodup →
      ∃ acts, processKeepers env ipfs m ks =
          .ok (eraseAll m (derivedNames env ipfs ks), acts) ∧
        ∀ a ∈ acts, a.isLog = true := by
  induction ks with
  | nil => intro m _ _; exact ⟨[], rfl, by simp⟩
  | cons k rest ih =>
    intro m hsub hnd
    have hcons : derivedNames env ipfs (k :: rest) =
        keeperDerivedNames env ipfs k ++ derivedNames env ipfs rest := by
      simp [derivedNames]
    rw [hcons] at hsub hnd ⊢
    by_cases hact : keeperActive ipfs k
    · rw [keeperDerivedNames_active env ipfs k hact] at hsub hnd ⊢
      obtain ⟨hndl, hndr, hdisj⟩ := List.nodup_append.mp hnd
      have hsubL : ∀ n ∈ acceptedNames env ((ipfs k.name).getD "") k.configFiles,
          n ∈ taskKeys m := fun n hn => hsub n (List.mem_append_left _ hn)
      obtain ⟨acts1, hcfg, hlog1⟩ :=
        processConfigs_matched env ((ipfs k.name).getD "") k.configFiles m hsubL hndl
      have h123 := hact
      simp only [keeperActive, Bool.and_eq_true, Bool.not_eq_true'] at h123
      obtain ⟨⟨h1, h2⟩, h3⟩ := h123
      have hpk : processKeeper env ipfs m k =
          .ok (eraseAll m (acceptedNames env ((ipfs k.name).getD "") k.configFiles),
            .log ("Deploying " ++ k.name) :: acts1) := by
        simp [processKeeper, h1, h2, h3, hcfg]
      have hsubR : ∀ n ∈ derivedNames env ipfs rest,
          n ∈ taskKeys (eraseAll m (acceptedNames env ((ipfs k.name).getD "") k.configFiles)) := by
        intro n hn
        rw [mem_taskKeys_eraseAll]
        exact ⟨hsub n (List.mem_append_right _ hn), fun hin => hdisj hin hn⟩
      obtain ⟨acts2, hrest, hlog2⟩ :=
        ih (eraseAll m (acceptedNames env ((ipfs k.name).getD "") k.configFiles)) hsubR hndr
      refine ⟨(.log ("Deploying " ++ k.name) :: acts1) ++ acts2, ?_, ?_⟩
      · simp [processKeepers, hpk, hrest, eraseAll_append]
      · intro a ha
        rcases List.mem_append.mp ha with ha1 | ha2
        · rcases List.mem_cons.mp ha1 with rfl | ha1b
          · rfl
          · exact hlog1 a ha1b
        · exact hlog2 a ha2
    · have hact2 : keeperActive ipfs k = false := by simpa using hact
      rw [keeperDerivedNames_inactive env ipfs k hact2] at hsub hnd ⊢
      simp only [List.nil_append] at hsub hnd ⊢
      obtain ⟨msg, hpk⟩ := processKeeper_inactive env ipfs m k hact2
      obtain ⟨acts, hrest, hlog⟩ := ih m hsub hnd
      refine ⟨.log msg :: acts, ?_, ?_⟩
      · simp [processKeepers, hpk, hrest]
      · intro a ha
        rcases List.mem_cons.mp ha with rfl | ha2
        · rfl
        · exact hlog a ha2

theorem isLog_not_isCreateTask {a : Action} (h : a.isLog = true) : a.isCreateTask = false := by
  cases a <;> simp [Action.isLog, Action.isCreateTask] at h ⊢

theorem isLog_not_isCancelTask {a : Action} (h : a.isLog = true) : a.isCancelTask = false := by
  cases a <;> simp [Action.isLog, Action.isCancelTask] at h ⊢

end Deploy


/-- Claim C1: reconciliation is idempotent.  If a run has completed so
that the active-task working set holds exactly the derived deployment
names of the local configs (names derived from unchanged config bytes
and unchanged code content-addresses, and pairwise distinct), a second
run issues zero create-task and zero cancel-task transactions: every
derived deployment name matches an entry of the initial working set and
is removed from it before the final cancellation pass. -/
theorem claim_C1 (env : Deploy.Env) (ipfs : String → Option String)
    (keepers : List Deploy.Keeper) (oldTasks0 : Deploy.TaskMap)
    (hkeys : ∀ n, n ∈ Deploy.taskKeys oldTasks0 ↔ n ∈ Deploy.derivedNames env ipfs keepers)
    (hnd : (Deploy.derivedNames env ipfs keepers).Nodup) :
    ∃ acts, Deploy.reconcile env ipfs keepers oldTasks0 = .ok acts ∧
      acts.countP Deploy.Action.isCreateTask = 0 ∧
      acts.countP Deploy.Action.isCancelTask = 0 := by
  obtain ⟨acts, hpk, hlog⟩ := Deploy.processKeepers_matched env ipfs keepers oldTasks0
    (fun n hn => (hkeys n).mpr hn) hnd
  have hm : Deploy.eraseAll oldTasks0 (Deploy.derivedNames env ipfs keepers) = [] := by
    apply Deploy.taskKeys_eq_nil
    intro n hn
    rw [Deploy.mem_taskKeys_eraseAll] at hn
    exact hn.2 ((hkeys n).mp hn.1)
  refine ⟨acts, ?_, ?_, ?_⟩
  · simp [Deploy.reconcile, hpk, hm, Deploy.cancelActions]
  · rw [List.countP_eq_zero]
    intro a ha
    simp [Deploy.isLog_not_isCreateTask (hlog a ha)]
  · rw [List.countP_eq_zero]
    intro a ha
    simp [Deploy.isLog_not_isCancelTask (hlog a ha)]

/-- Witness for claim C1: a concrete second run over one keeper and one
config whose derived name is already active; it issues no transactions
(note the scenario has every secret environment variable absent). -/
theorem claim_C1_witness :
    ∃ acts, Deploy.reconcile Scenario.envConst Scenario.ipfsDemo [Scenario.keeperDemo]
        Scenario.oldTasksDemo = .ok acts ∧
      acts.countP Deploy.Action.isCreateTask = 0 ∧
      acts.countP Deploy.Action.isCancelTask = 0 :=
  claim_C1 Scenario.envConst Scenario.ipfsDemo [Scenario.keeperDemo] Scenario.oldTasksDemo
    (by
      have h1 : Deploy.taskKeys Scenario.oldTasksDemo = ["main H"] := by decide
      have h2 : Deploy.derivedNames Scenario.envConst Scenario.ipfsDemo [Scenario.keeperDemo]
          = ["main H"] := by decide
      intro n
      rw [h1, h2])
    (by decide)

/-- Claim C8: a config whose derived deployment name matches an entry
of the working set takes the match branch before secrets are resolved,
the trigger is translated, or any SDK call is made: for every
environment-variable table and every ABI table — in particular with all
secret environment variables absent — the config only logs and removes
its name, and never raises. -/
theorem claim_C8 (keccak : Bytes → String) (envVars : String → Option String)
    (abiFiles : String → Option (List Deploy.EventDef)) (ipfsHash : String)
    (m : Deploy.TaskMap) (cf : Deploy.ConfigFile) (t : Deploy.TaskRef)
    (hacc : Deploy.configAccepted cf = true)
    (hlk : Deploy.lookupTask m
      (Deploy.deploymentNameOf ⟨keccak, envVars, abiFiles⟩ ipfsHash cf) = some t) :
    Deploy.processConfig ⟨keccak, envVars, abiFiles⟩ ipfsHash m cf =
      .ok (Deploy.eraseTask m (Deploy.deploymentNameOf ⟨keccak, envVars, abiFiles⟩ ipfsHash cf),
        [.log ("Task " ++ Deploy.deploymentNameOf ⟨keccak, envVars, abiFiles⟩ ipfsHash cf
          ++ " is already active")]) :=
  Deploy.processConfig_matched ⟨keccak, envVars, abiFiles⟩ ipfsHash m cf t hacc hlk

/-- Witness for claim C8: the matched config of the demo scenario is
skipped without error although its secret environment variable is
absent (the witness environment defines no variables at all). -/
theorem claim_C8_witness :
    Deploy.processConfig Scenario.envConst "Qm" Scenario.oldTasksDemo Scenario.cfBlock =
      .ok (Deploy.eraseTask Scenario.oldTasksDemo
          (Deploy.deploymentNameOf Scenario.envConst "Qm" Scenario.cfBlock),
        [.log ("Task " ++ Deploy.deploymentNameOf Scenario.envConst "Qm" Scenario.cfBlock
          ++ " is already active")]) :=
  claim_C8 (fun _ => "H") (fun _ => none) (fun _ => none) "Qm" Scenario.oldTasksDemo
    Scenario.cfBlock { taskId := "task1", domain := "mainnet" } (by decide) (by decide)

namespace Deploy

theorem processConfig_skip_domain (env : Env) (ipfsHash : String) (m : TaskMap)
    (cf : ConfigFile) (hdom : cf.parsed.domain ∉ domains) :
    processConfig env ipfsHash m cf =
      .ok (m, [.log ("Domain " ++ cf.parsed.domain ++ " is not supported")]) := by
  simp [processConfig, hdom]

theorem processConfig_skip_trigger (env : Env) (ipfsHash : String) (m : TaskMap)
    (cf : ConfigFile) (hdom : cf.parsed.domain ∈ domains)
    (htrig : cf.parsed.trigger.typeName ∉ triggerTypeNames) :
    processConfig env ipfsHash m cf =
      .ok (m, [.log ("Trigger type " ++ cf.parsed.trigger.typeName ++ " is not supported")]) := by
  simp [processConfig, hdom, htrig]

/-- A config that only logs leaves the rest of the loop to run on the
unchanged working set, prepending its diagnostic. -/
theorem processConfigs_cons_of_skip (env : Env) (ipfsHash : String) (m : TaskMap)
    (cf : ConfigFile) (rest : List ConfigFile) (msg : String)
    (h : processConfig env ipfsHash m cf = .ok (m, [.log msg])) :
    processConfigs env ipfsHash m (cf :: rest) =
      (processConfigs env ipfsHash m rest).map (fun p => (p.1, .log msg :: p.2)) := by
  cases hrest : processConfigs env ipfsHash m rest with
  | error e => simp [processConfigs, h, hrest, Except.map]
  | ok p => cases p with | mk a b => simp [processConfigs, h, hrest, Except.map]

/-- A config whose processing throws aborts the loop with that error. -/
theorem processConfigs_cons_of_error (env : Env) (ipfsHash : String) (m : TaskMap)
    (cf : ConfigFile) (rest : List ConfigFile) (e : DeployError)
    (h : processConfig env ipfsHash m cf = .error e) :
    processConfigs env ipfsHash m (cf :: rest) = .error e := by
  simp [processConfigs, h]

theorem processConfig_error_trigger (env : Env) (ipfsHash : String) (m : TaskMap)
    (cf : ConfigFile) (e : DeployError) (hacc : configAccepted cf = true)
    (hlk : lookupTask m (deploymentNameOf env ipfsHash cf) = none)
    (htc : createTriggerConfig env cf.parsed.trigger = .error e) :
    processConfig env ipfsHash m cf = .error e := by
  obtain ⟨h1, h2⟩ := configAccepted_true hacc
  simp [processConfig, h1, h2, hlk, htc]

theorem processConfig_error_secret (env : Env) (ipfsHash : String) (m : TaskMap)
    (cf : ConfigFile) (tc : TriggerConfig) (e : DeployError) (hacc : configAccepted cf = true)
    (hlk : lookupTask m (deploymentNameOf env ipfsHash cf) = none)
    (htc : createTriggerConfig env cf.parsed.trigger = .ok tc)
    (hsec : resolveSecrets env.envVars cf.parsed.secrets = .error e) :
    processConfig env ipfsHash m cf = .error e := by
  obtain ⟨h1, h2⟩ := configAccepted_true hacc
  simp [processConfig, h1, h2, hlk, htc, hsec]

end Deploy

/-- Claim C3 (counterexample): a missing secret environment variable
does not merely skip the offending config — the run aborts with the
thrown error before the remaining config of the same keeper is
processed, contradicting the claim that any unexpected error is
reported, the config skipped, and processing continued. -/
theorem claim_C3_counterexample :
    Deploy.reconcile Scenario.envConst Scenario.ipfsDemo [Scenario.keeperTwoConfigs] [] =
      .error (.missingSecretEnvVar "MY_SECRET") := rfl

/-- Claim C3 (amended): unsupported-domain and unsupported-trigger-type
errors for a single config are reported and that config is skipped with
processing of the remaining configs continuing; but a missing secret
environment variable or a trigger-translation (ABI lookup) failure
throws and aborts the whole run with that error. -/
theorem claim_C3_amended (env : Deploy.Env) (ipfsHash : String) (m : Deploy.TaskMap)
    (cf : Deploy.ConfigFile) (rest : List Deploy.ConfigFile) :
    (cf.parsed.domain ∉ Deploy.domains →
      Deploy.processConfigs env ipfsHash m (cf :: rest) =
        (Deploy.processConfigs env ipfsHash m rest).map
          (fun p => (p.1, .log ("Domain " ++ cf.parsed.domain ++ " is not supported") :: p.2))) ∧
    (cf.parsed.domain ∈ Deploy.domains →
      cf.parsed.trigger.typeName ∉ Deploy.triggerTypeNames →
      Deploy.processConfigs env ipfsHash m (cf :: rest) =
        (Deploy.processConfigs env ipfsHash m rest).map
          (fun p => (p.1,
            .log ("Trigger type " ++ cf.parsed.trigger.typeName ++ " is not supported") :: p.2))) ∧
    (∀ e, Deploy.configAccepted cf = true →
      Deploy.lookupTask m (Deploy.deploymentNameOf env ipfsHash cf) = none →
      Deploy.createTriggerConfig env cf.parsed.trigger = .error e →
      Deploy.processConfigs env ipfsHash m (cf :: rest) = .error e) ∧
    (∀ tc e, Deploy.configAccepted cf = true →
      Deploy.lookupTask m (Deploy.deploymentNameOf env ipfsHash cf) = none →
      Deploy.createTriggerConfig env cf.parsed.trigger = .ok tc →
      Deploy.resolveSecrets env.envVars cf.parsed.secrets = .error e →
      Deploy.processConfigs env ipfsHash m (cf :: rest) = .error e) := by
  refine ⟨?_, ?_, ?_, ?_⟩
  · intro hdom
    exact Deploy.processConfigs_cons_of_skip env ipfsHash m cf rest _
      (Deploy.processConfig_skip_domain env ipfsHash m cf hdom)
  · intro hdom htrig
    exact Deploy.processConfigs_cons_of_skip env ipfsHash m cf rest _
      (Deploy.processConfig_skip_trigger env ipfsHash m cf hdom htrig)
  · intro e hacc hlk htc
    exact Deploy.processConfigs_cons_of_error env ipfsHash m cf rest e
      (Deploy.processConfig_error_trigger env ipfsHash m cf e hacc hlk htc)
  · intro tc e hacc hlk htc hsec
    exact Deploy.processConfigs_cons_of_error env ipfsHash m cf rest e
      (Deploy.processConfig_error_secret env ipfsHash m cf tc e hacc hlk htc hsec)

/-- Witness for claim C3 (amended): the unsupported-domain config is
skipped with processing continuing, while the missing-secret config
aborts the loop before the config behind it. -/
theorem claim_C3_amended_witness :
    (Deploy.processConfigs Scenario.envConst "Qm" [] (Scenario.cfBadDomain :: []) =
      (Deploy.processConfigs Scenario.envConst "Qm" [] []).map
        (fun p => (p.1, .log ("Domain " ++ Scenario.cfBadDomain.parsed.domain
          ++ " is not supported") :: p.2))) ∧
    (Deploy.processConfigs Scenario.envConst "Qm" []
        (Scenario.cfMissingSecret :: [Scenario.cfBlock]) =
      .error (.missingSecretEnvVar "MY_SECRET")) :=
  ⟨(claim_C3_amended Scenario.envConst "Qm" [] Scenario.cfBadDomain []).1 (by decide),
   (claim_C3_amended Scenario.envConst "Qm" [] Scenario.cfMissingSecret
      [Scenario.cfBlock]).2.2.2 .block (.missingSecretEnvVar "MY_SECRET")
     (by decide) (by decide) rfl rfl⟩

/-- Claim C6: a config whose domain is outside the supported network
set is logged and skipped with no vendor SDK call for that config (its
only action is the diagnostic), and the same run still processes the
remaining configs on the unchanged working set. -/
theorem claim_C6 (env : Deploy.Env) (ipfsHash : String) (m : Deploy.TaskMap)
    (cf : Deploy.ConfigFile) (rest : List Deploy.ConfigFile)
    (hdom : cf.parsed.domain ∉ Deploy.domains) :
    Deploy.processConfig env ipfsHash m cf =
      .ok (m, [.log ("Domain " ++ cf.parsed.domain ++ " is not supported")]) ∧
    Deploy.processConfigs env ipfsHash m (cf :: rest) =
      (Deploy.processConfigs env ipfsHash m rest).map
        (fun p => (p.1, .log ("Domain " ++ cf.parsed.domain ++ " is not supported") :: p.2)) := by
  have h1 := Deploy.processConfig_skip_domain env ipfsHash m cf hdom
  exact ⟨h1, Deploy.processConfigs_cons_of_skip env ipfsHash m cf rest _ h1⟩

/-- Witness for claim C6: the `optimism` config is skipped with only a
diagnostic, and the rest of the loop runs unchanged. -/
theorem claim_C6_witness :
    Deploy.processConfig Scenario.envConst "Qm" [] Scenario.cfBadDomain =
      .ok ([], [.log ("Domain " ++ Scenario.cfBadDomain.parsed.domain
        ++ " is not supported")]) ∧
    Deploy.processConfigs Scenario.envConst "Qm" [] (Scenario.cfBadDomain :: [Scenario.cfBlock]) =
      (Deploy.processConfigs Scenario.envConst "Qm" [] [Scenario.cfBlock]).map
        (fun p => (p.1, .log ("Domain " ++ Scenario.cfBadDomain.parsed.domain
          ++ " is not supported") :: p.2)) :=
  claim_C6 Scenario.envConst "Qm" [] Scenario.cfBadDomain [Scenario.cfBlock] (by decide)

/-- Claim C2: for a collision-free hash, changing a single byte of the
raw config bytes changes the derived identity hash, hence the derived
task name `<config-label> <hash>`; on the next run the old name is not
matched, so the run creates a task under the new name and cancels the
old task in the final pass. -/
theorem claim_C2 (env : Deploy.Env) (hinj : Function.Injective env.keccak)
    (kname fileName ipfsAddr : String) (raw raw2 : Bytes)
    (cfg : Deploy.DeploymentConfig) (tref : Deploy.TaskRef)
    (tc : Deploy.TriggerConfig) (secs : List (String × String))
    (hdiff : Deploy.differOneByte raw raw2)
    (hipfs : ipfsAddr ≠ "")
    (hacc : Deploy.configAccepted ⟨fileName, raw2, cfg⟩ = true)
    (htc : Deploy.createTriggerConfig env cfg.trigger = .ok tc)
    (hsec : Deploy.resolveSecrets env.envVars cfg.secrets = .ok secs) :
    Deploy.createHash env.keccak raw ipfsAddr ≠ Deploy.createHash env.keccak raw2 ipfsAddr ∧
    Deploy.deploymentNameOf env ipfsAddr ⟨fileName, raw2, cfg⟩ ≠
      jsSliceDropRight fileName 5 ++ " " ++ Deploy.createHash env.keccak raw ipfsAddr ∧
    Deploy.reconcile env (fun n => if n = kname then some ipfsAddr else none)
        [⟨kname, true, [⟨fileName, raw2, cfg⟩]⟩]
        [(jsSliceDropRight fileName 5 ++ " " ++ Deploy.createHash env.keccak raw ipfsAddr,
          tref)] =
      .ok [.log ("Deploying " ++ kname),
           .log ("Deploying " ++ Deploy.deploymentNameOf env ipfsAddr ⟨fileName, raw2, cfg⟩),
           .createTask cfg.domain (Deploy.deploymentNameOf env ipfsAddr ⟨fileName, raw2, cfg⟩)
             ipfsAddr cfg.args tc,
           .setSecrets cfg.domain secs,
           .log ("Cancelling task "
             ++ (jsSliceDropRight fileName 5 ++ " "
               ++ Deploy.createHash env.keccak raw ipfsAddr)),
           .cancelTask tref.domain tref.taskId] := by
  have h1 : Deploy.createHash env.keccak raw ipfsAddr ≠
      Deploy.createHash env.keccak raw2 ipfsAddr :=
    Deploy.createHash_ne env.keccak hinj (Deploy.differOneByte_ne hdiff) ipfsAddr
  have h2 : Deploy.deploymentNameOf env ipfsAddr ⟨fileName, raw2, cfg⟩ ≠
      jsSliceDropRight fileName 5 ++ " " ++ Deploy.createHash env.keccak raw ipfsAddr := by
    intro he
    simp only [Deploy.deploymentNameOf] at he
    exact h1 (Deploy.string_append_left_cancel he).symm
  have hne : ¬ (jsSliceDropRight fileName 5 ++ " " ++ Deploy.createHash env.keccak raw ipfsAddr
      = Deploy.deploymentNameOf env ipfsAddr ⟨fileName, raw2, cfg⟩) := fun he => h2 he.symm
  have hlk : Deploy.lookupTask
      [(jsSliceDropRight fileName 5 ++ " " ++ Deploy.createHash env.keccak raw ipfsAddr, tref)]
      (Deploy.deploymentNameOf env ipfsAddr ⟨fileName, raw2, cfg⟩) = none := by
    simp [Deploy.lookupTask, hne]
  obtain ⟨hd, ht⟩ := Deploy.configAccepted_true hacc
  have hpc : Deploy.processConfig env ipfsAddr
      [(jsSliceDropRight fileName 5 ++ " " ++ Deploy.createHash env.keccak raw ipfsAddr, tref)]
      ⟨fileName, raw2, cfg⟩ =
      .ok ([(jsSliceDropRight fileName 5 ++ " " ++ Deploy.createHash env.keccak raw ipfsAddr,
            tref)],
        [.log ("Deploying " ++ Deploy.deploymentNameOf env ipfsAddr ⟨fileName, raw2, cfg⟩),
         .createTask cfg.domain (Deploy.deploymentNameOf env ipfsAddr ⟨fileName, raw2, cfg⟩)
           ipfsAddr cfg.args tc,
         .setSecrets cfg.domain secs]) := by
    simp [Deploy.processConfig, hd, ht, hlk, htc, hsec]
  refine ⟨h1, h2, ?_⟩
  simp [Deploy.reconcile, Deploy.processKeepers, Deploy.processKeeper, Deploy.processConfigs,
    hpc, Deploy.cancelActions, jsTruthy, hipfs]

/-- Witness for claim C2: the one-byte change from `[0]` to `[1]` under
the injective witness hash makes the next run cancel the old task and
create a task with the new name. -/
theorem claim_C2_witness :
    Deploy.createHash Scenario.envEnc.keccak [0] "a" ≠
      Deploy.createHash Scenario.envEnc.keccak [1] "a" ∧
    Deploy.deploymentNameOf Scenario.envEnc "a" ⟨"main.json", [1], Scenario.dcSimple⟩ ≠
      jsSliceDropRight "main.json" 5 ++ " " ++ Deploy.createHash Scenario.envEnc.keccak [0] "a" ∧
    Deploy.reconcile Scenario.envEnc (fun n => if n = "demo" then some "a" else none)
        [⟨"demo", true, [⟨"main.json", [1], Scenario.dcSimple⟩]⟩]
        [(jsSliceDropRight "main.json" 5 ++ " "
            ++ Deploy.createHash Scenario.envEnc.keccak [0] "a",
          ⟨"task1", "mainnet"⟩)] =
      .ok [.log ("Deploying " ++ "demo"),
           .log ("Deploying "
             ++ Deploy.deploymentNameOf Scenario.envEnc "a" ⟨"main.json", [1], Scenario.dcSimple⟩),
           .createTask Scenario.dcSimple.domain
             (Deploy.deploymentNameOf Scenario.envEnc "a" ⟨"main.json", [1], Scenario.dcSimple⟩)
             "a" Scenario.dcSimple.args Deploy.TriggerConfig.block,
           .setSecrets Scenario.dcSimple.domain [],
           .log ("Cancelling task "
             ++ (jsSliceDropRight "main.json" 5 ++ " "
               ++ Deploy.createHash Scenario.envEnc.keccak [0] "a")),
           .cancelTask "mainnet" "task1"] :=
  claim_C2 Scenario.envEnc Enc.encStr_injective "demo" "main.json" "a" [0] [1]
    Scenario.dcSimple ⟨"task1", "mainnet"⟩ .block []
    ⟨[], 0, 1, [], by decide, rfl, rfl⟩ (by decide) (by decide) rfl rfl

namespace Deploy

theorem resolvedTopic_eq (env : Env) (r : EventTopicRef) (abi : List EventDef) (e : EventDef)
    (hf : env.abiFiles r.abiName = some abi)
    (he : abi.find? (fun ed => ed.name == r.eventName) = some e) :
    resolvedTopic env r = some (env.keccak (getBufferFromString e.canonicalSignature)) := by
  simp [resolvedTopic, hf, getEventTopic, he]

theorem resolveTopics_ok (env : Env) :
    ∀ refs : List EventTopicRef,
      (∀ r ∈ refs, (resolvedTopic env r).isSome) →
      ∃ ts, resolveTopics env refs = .ok ts ∧
        List.Forall₂ (fun r tp => resolvedTopic env r = some tp) refs ts := by
  intro refs
  induction refs with
  | nil => intro _; exact ⟨[], rfl, List.Forall₂.nil⟩
  | cons r rest ih =>
    intro hall
    have hr := hall r (List.mem_cons_self _ _)
    cases hf : env.abiFiles r.abiName with
    | none => rw [resolvedTopic, hf] at hr; simp at hr
    | some abi =>
      cases hg : getEventTopic env.keccak abi r.eventName with
      | none => rw [resolvedTopic, hf] at hr; simp [hg] at hr
      | some tp =>
        obtain ⟨ts, hts, hfa⟩ := ih (fun x hx => hall x (List.mem_cons_of_mem _ hx))
        refine ⟨tp :: ts, ?_, ?_⟩
        · simp [resolveTopics, hf, hg, hts, Except.map]
        · exact List.Forall₂.cons (by simp [resolvedTopic, hf, hg]) hfa

theorem resolveTopics_err (env : Env) :
    ∀ refs : List EventTopicRef,
      (∃ r ∈ refs, resolvedTopic env r = none) →
      ∃ err, resolveTopics env refs = .error err := by
  intro refs
  induction refs with
  | nil => rintro ⟨r, hr, _⟩; simp at hr
  | cons r rest ih =>
    rintro ⟨r0, hr0, hnone⟩
    cases hf : env.abiFiles r.abiName with
    | none => exact ⟨.abiFileMissing r.abiName, by simp [resolveTopics, hf]⟩
    | some abi =>
      cases hg : getEventTopic env.keccak abi r.eventName with
      | none => exact ⟨.eventMissing r.abiName r.eventName, by simp [resolveTopics, hf, hg]⟩
      | some tp =>
        rcases List.mem_cons.mp hr0 with rfl | hmem
        · rw [resolvedTopic, hf] at hnone; simp [hg] at hnone
        · obtain ⟨err, herr⟩ := ih ⟨r0, hmem, hnone⟩
          exact ⟨err, by simp [resolveTopics, hf, hg, herr, Except.map]⟩

theorem resolveTopics_error_shape (env : Env) :
    ∀ (refs : List EventTopicRef) (err : DeployError),
      resolveTopics env refs = .error err →
      (∃ a, err = .abiFileMissing a) ∨ (∃ a n, err = .eventMissing a n) := by
  intro refs
  induction refs with
  | nil => intro err h; simp [resolveTopics] at h
  | cons r rest ih =>
    intro err h
    cases hf : env.abiFiles r.abiName with
    | none =>
      simp only [resolveTopics, hf] at h
      injection h with h2
      exact Or.inl ⟨r.abiName, h2.symm⟩
    | some abi =>
      cases hg : getEventTopic env.keccak abi r.eventName with
      | none =>
        simp only [resolveTopics, hf, hg] at h
        injection h with h2
        exact Or.inr ⟨r.abiName, r.eventName, h2.symm⟩
      | some tp =>
        cases hrest : resolveTopics env rest with
        | error e2 =>
          simp only [resolveTopics, hf, hg, hrest, Except.map] at h
          injection h with h2
          exact h2 ▸ ih e2 hrest
        | ok ts =>
          simp only [resolveTopics, hf, hg, hrest, Except.map] at h
          exact Except.noConfusion h

end Deploy

/-- Claim C5: event-trigger translation resolves each (ABI name, event
name) pair to the keccak-based topic hash of the canonical signature of
the event found in the ABI file loaded by name, groups all resolved
topics of one trigger into a single inner OR-filter array, passes
address and blockConfirmations through, and fails with a lookup error
when the named ABI file is missing or the event name is absent from
it. -/
theorem claim_C5 (env : Deploy.Env) (address : String)
    (refs : List Deploy.EventTopicRef) (bc : Nat) :
    (∀ r abi e, env.abiFiles r.abiName = some abi →
      abi.find? (fun ed => ed.name == r.eventName) = some e →
      Deploy.resolvedTopic env r =
        some (env.keccak (Deploy.getBufferFromString e.canonicalSignature))) ∧
    ((∀ r ∈ refs, (Deploy.resolvedTopic env r).isSome) →
      ∃ ts, Deploy.createTriggerConfig env (.event address refs bc) =
          .ok (.event address [ts] bc) ∧
        List.Forall₂ (fun r tp => Deploy.resolvedTopic env r = some tp) refs ts) ∧
    ((∃ r ∈ refs, Deploy.resolvedTopic env r = none) →
      ∃ err, Deploy.createTriggerConfig env (.event address refs bc) = .error err ∧
        ((∃ a, err = .abiFileMissing a) ∨ (∃ a n, err = .eventMissing a n))) := by
  refine ⟨?_, ?_, ?_⟩
  · intro r abi e hf he
    exact Deploy.resolvedTopic_eq env r abi e hf he
  · intro hall
    obtain ⟨ts, hts, hfa⟩ := Deploy.resolveTopics_ok env refs hall
    exact ⟨ts, by simp [Deploy.createTriggerConfig, hts, Except.map], hfa⟩
  · intro hex
    obtain ⟨err, herr⟩ := Deploy.resolveTopics_err env refs hex
    refine ⟨err, by simp [Deploy.createTriggerConfig, herr, Except.map], ?_⟩
    exact Deploy.resolveTopics_error_shape env refs err herr

/-- Witness for claim C5: the `AnswerUpdated` filter entry resolves to
the hash of its canonical signature and translates successfully, while
an entry naming a missing ABI file fails with a lookup error. -/
theorem claim_C5_witness :
    (Deploy.resolvedTopic Scenario.envAbi Scenario.refAgg =
      some (Scenario.envAbi.keccak (Deploy.getBufferFromString
        (Deploy.EventDef.canonicalSignature
          { name := "AnswerUpdated", paramTypes := ["int256", "uint256", "uint256"] })))) ∧
    (∃ ts, Deploy.createTriggerConfig Scenario.envAbi
        (.event "0xfeed" [Scenario.refAgg] 0) = .ok (.event "0xfeed" [ts] 0) ∧
      List.Forall₂ (fun r tp => Deploy.resolvedTopic Scenario.envAbi r = some tp)
        [Scenario.refAgg] ts) ∧
    (∃ err, Deploy.createTriggerConfig Scenario.envAbi
        (.event "0xfeed" [Scenario.refMissing] 0) = .error err ∧
      ((∃ a, err = .abiFileMissing a) ∨ (∃ a n, err = .eventMissing a n))) :=
  ⟨(claim_C5 Scenario.envAbi "0xfeed" [Scenario.refAgg] 0).1 Scenario.refAgg Scenario.abiAgg
      { name := "AnswerUpdated", paramTypes := ["int256", "uint256", "uint256"] } rfl rfl,
   (claim_C5 Scenario.envAbi "0xfeed" [Scenario.refAgg] 0).2.1 (by decide),
   (claim_C5 Scenario.envAbi "0xfeed" [Scenario.refMissing] 0).2.2
     ⟨Scenario.refMissing, by decide, rfl⟩⟩

/-- Claim C7 (counterexample): the resolver does not strip a trailing
newline — it drops the final character of the password file
unconditionally (`slice(0, -1)`).  On a password file `abc` with no
trailing newline the source resolver decrypts with `ab`, while the
resolver following the words of the claim decrypts with `abc`, giving
different credentials. -/
theorem claim_C7_counterexample :
    Identity.resolveDeployerKey Scenario.readFileC7 Scenario.decryptC7
        none (some "ks") (some "pw") = .ok "K2" ∧
    Identity.resolveDeployerKeySpec Scenario.readFileC7 Scenario.decryptC7
        none (some "ks") (some "pw") = .ok "K1" ∧
    ("K2" : String) ≠ "K1" :=
  ⟨rfl, rfl, by decide⟩

/-- Claim C7 (amended): when no explicit private key is supplied and
both a keystore file path and a password file path are supplied, the
resolver reads the password file, drops its final character (the
trailing newline whenever the file ends with one), and decrypts the
keystore synchronously with that password; if neither the explicit key
nor the keystore path yields a usable credential, the resolver throws
the fatal configuration error (this happens before any wallet or SDK is
constructed). -/
theorem claim_C7_amended (readFile : String → Option String)
    (decrypt : String → String → Option String) (envPrivateKey : Option String)
    (kp pp pwContents ksContents key : String) :
    (jsTruthy envPrivateKey = false → kp ≠ "" → pp ≠ "" →
      readFile pp = some pwContents → readFile kp = some ksContents →
      decrypt ksContents (Identity.jsSliceDropLastChar pwContents) = some key → key ≠ "" →
      Identity.resolveDeployerKey readFile decrypt envPrivateKey (some kp) (some pp) =
        .ok key) ∧
    (∀ s : String, s.data.getLast? = some (Char.ofNat 10) →
      Identity.jsSliceDropLastChar s = Identity.stripTrailingNewline s) ∧
    (∀ keystorePath passwordPath : Option String, jsTruthy envPrivateKey = false →
      jsTruthy keystorePath = false ∨ jsTruthy passwordPath = false →
      Identity.resolveDeployerKey readFile decrypt envPrivateKey keystorePath passwordPath =
        .error "Private key is not configured") := by
  refine ⟨?_, ?_, ?_⟩
  · intro henv hkp hpp hrp hrk hdec hkey
    have hkpb : ((some kp : Option String) |> jsTruthy) = true := by simp [jsTruthy, hkp]
    have hppb : ((some pp : Option String) |> jsTruthy) = true := by simp [jsTruthy, hpp]
    have hkeyb : ((some key : Option String) |> jsTruthy) = true := by simp [jsTruthy, hkey]
    have hppne : (pp != "") = true := by simp [hpp]
    simp [Identity.resolveDeployerKey, Identity.deployerKeyExpr, henv, hkpb, hppb,
      Identity.retrievePrivateKeyFromKeystore, hppne, hrp, hrk, hdec, hkeyb]
  · intro s hs
    simp [Identity.stripTrailingNewline, hs, Identity.jsSliceDropLastChar]
  · intro keystorePath passwordPath henv hor
    rcases hor with hks | hpw
    · simp [Identity.resolveDeployerKey, Identity.deployerKeyExpr, henv, hks]
    · by_cases hks : jsTruthy keystorePath
      · simp [Identity.resolveDeployerKey, Identity.deployerKeyExpr, henv, hks, hpw]
      · simp [Identity.resolveDeployerKey, Identity.deployerKeyExpr, henv, hks]

/-- Witness for claim C7 (amended): a newline-terminated password file
decrypts with the newline stripped, and a run with neither an explicit
key nor a keystore path aborts with the fatal error. -/
theorem claim_C7_amended_witness :
    (Identity.resolveDeployerKey Scenario.readFileC7n Scenario.decryptC7n
        none (some "ks") (some "pw") = .ok "0xkey") ∧
    (Identity.resolveDeployerKey Scenario.readFileC7n Scenario.decryptC7n
        none none none = .error "Private key is not configured") :=
  ⟨(claim_C7_amended Scenario.readFileC7n Scenario.decryptC7n none "ks" "pw" "secret\n" "KS"
      "0xkey").1 rfl (by decide) (by decide) rfl rfl rfl (by decide),
   (claim_C7_amended Scenario.readFileC7n Scenario.decryptC7n none "" "" "" "" "").2.2
     none none rfl (Or.inl rfl)⟩

/-- Claim C9: in the all-in-one deploy script, the deployed-state map
(deployments.json) is rewritten only after the per-keeper deployment
logic completes.  A keeper skipped for lack of an IPFS deployment, a
keeper whose recorded address already equals the pre-deployment
address, and a keeper whose logic throws all leave the map unchanged
with no file write; only a completed logic updates the entry and
writes. -/
theorem claim_C9 (ipfs st : List (String × String)) (w3fName : String)
    (logic : String → Except String Unit) :
    (ipfs.lookup w3fName = none →
      DeployAll.deploy ipfs st w3fName logic = (st, false, none)) ∧
    (∀ d, ipfs.lookup w3fName = some d → st.lookup w3fName = some d →
      DeployAll.deploy ipfs st w3fName logic = (st, false, none)) ∧
    (∀ d e, ipfs.lookup w3fName = some d → st.lookup w3fName ≠ some d →
      logic d = .error e →
      DeployAll.deploy ipfs st w3fName logic = (st, false, some e)) ∧
    (∀ d, ipfs.lookup w3fName = some d → st.lookup w3fName ≠ some d →
      logic d = .ok () →
      DeployAll.deploy ipfs st w3fName logic =
        ((w3fName, d) :: st.filter (fun p => p.1 != w3fName), true, none)) := by
  refine ⟨?_, ?_, ?_, ?_⟩
  · intro h
    simp [DeployAll.deploy, h]
  · intro d h1 h2
    simp [DeployAll.deploy, h1, h2]
  · intro d e h1 h2 h3
    simp [DeployAll.deploy, h1, h2, h3]
  · intro d h1 h2 h3
    simp [DeployAll.deploy, h1, h2, h3]

/-- Witness for claim C9: missing index entry, already-deployed entry
and throwing logic all leave the state map untouched without a write;
completing logic rewrites the entry. -/
theorem claim_C9_witness :
    (DeployAll.deploy Scenario.ipfsAll Scenario.stAll "z" Scenario.logicFail =
      (Scenario.stAll, false, none)) ∧
    (DeployAll.deploy Scenario.ipfsAll Scenario.stAll "b" Scenario.logicFail =
      (Scenario.stAll, false, none)) ∧
    (DeployAll.deploy Scenario.ipfsAll Scenario.stAll "a" Scenario.logicFail =
      (Scenario.stAll, false, some "boom")) ∧
    (DeployAll.deploy Scenario.ipfsAll Scenario.stAll "a" Scenario.logicOk =
      (("a", "QmA") :: Scenario.stAll.filter (fun p => p.1 != "a"), true, none)) :=
  ⟨(claim_C9 Scenario.ipfsAll Scenario.stAll "z" Scenario.logicFail).1 rfl,
   (claim_C9 Scenario.ipfsAll Scenario.stAll "b" Scenario.logicFail).2.1 "QmB" rfl rfl,
   (claim_C9 Scenario.ipfsAll Scenario.stAll "a" Scenario.logicFail).2.2.1 "QmA" "boom" rfl
     (by decide) rfl,
   (claim_C9 Scenario.ipfsAll Scenario.stAll "a" Scenario.logicOk).2.2.2 "QmA" rfl
     (by decide) rfl⟩

/-- Claim C10: retirePreviouslyDeployedTasks cancels exactly the active
tasks whose name with its final deploymentTag.length characters removed
is one of the supplied base names; the selection depends only on the
tag length (any same-length tag, in particular any date-time tag built
from full ISO strings, selects the same tasks, and a name built as
`base ++ tag` strips back to `base`), and an active task whose stripped
name is not listed is left untouched. -/
theorem claim_C10 (deploymentTag : String) (activeTasks : List DeployAll.ActiveTask)
    (taskNames : List String) :
    (∀ t, t ∈ DeployAll.tasksToRetire deploymentTag activeTasks taskNames ↔
      t ∈ activeTasks ∧ jsSliceDropRight t.name deploymentTag.length ∈ taskNames) ∧
    (∀ tag2 : String, tag2.length = deploymentTag.length →
      DeployAll.tasksToRetire tag2 activeTasks taskNames =
        DeployAll.tasksToRetire deploymentTag activeTasks taskNames) ∧
    (∀ base : String, jsSliceDropRight (base ++ deploymentTag) deploymentTag.length = base) ∧
    (∀ d d2 : String, 19 ≤ d.length → 19 ≤ d2.length →
      DeployAll.tasksToRetire (DeployAll.mkDeploymentTag d) activeTasks taskNames =
        DeployAll.tasksToRetire (DeployAll.mkDeploymentTag d2) activeTasks taskNames) ∧
    (∀ t, t ∈ activeTasks →
      jsSliceDropRight t.name deploymentTag.length ∉ taskNames →
      t ∉ DeployAll.tasksToRetire deploymentTag activeTasks taskNames) := by
  have hmem : ∀ (tag : String) (t : DeployAll.ActiveTask),
      t ∈ DeployAll.tasksToRetire tag activeTasks taskNames ↔
        t ∈ activeTasks ∧ jsSliceDropRight t.name tag.length ∈ taskNames := by
    intro tag t
    simp [DeployAll.tasksToRetire, List.mem_filter]
  have hlen : ∀ tag2 : String, tag2.length = deploymentTag.length →
      DeployAll.tasksToRetire tag2 activeTasks taskNames =
        DeployAll.tasksToRetire deploymentTag activeTasks taskNames := by
    intro tag2 h
    simp [DeployAll.tasksToRetire, h]
  have htag : ∀ d : String, 19 ≤ d.length → (DeployAll.mkDeploymentTag d).length = 22 := by
    intro d hd
    have h1 : (DeployAll.jsSlice d 0 10).length = 10 := by
      simp only [DeployAll.jsSlice, String.length]
      simp only [List.length_drop, List.length_take]
      have : d.data.length = d.length := rfl
      omega
    have h2 : (DeployAll.jsSlice d 11 19).length = 8 := by
      simp only [DeployAll.jsSlice, String.length]
      simp only [List.length_drop, List.length_take]
      have : d.data.length = d.length := rfl
      omega
    simp only [DeployAll.mkDeploymentTag, String.length_append, h1, h2]
    decide
  refine ⟨hmem deploymentTag, hlen, ?_, ?_, ?_⟩
  · intro base
    apply String.ext
    have hdata : (base ++ deploymentTag).data = base.data ++ deploymentTag.data :=
      String.data_append base deploymentTag
    simp only [jsSliceDropRight, hdata]
    have h1 : (base.data ++ deploymentTag.data).length = base.data.length
        + deploymentTag.data.length := List.length_append base.data deploymentTag.data
    have h2 : deploymentTag.length = deploymentTag.data.length := rfl
    rw [h2, h1]
    have h3 : base.data.length + deploymentTag.data.length - deploymentTag.data.length
        = base.data.length := by omega
    rw [h3]
    exact List.take_left base.data deploymentTag.data
  · intro d d2 hd hd2
    have e1 : (DeployAll.mkDeploymentTag d).length = 22 := htag d hd
    have e2 : (DeployAll.mkDeploymentTag d2).length = 22 := htag d2 hd2
    simp [DeployAll.tasksToRetire, e1, e2]
  · intro t hmem2 hnot hin
    exact hnot ((hmem deploymentTag t).mp hin).2

/-- Witness for claim C10: the two tagged generations of
`Cap Automator` are retired, the other listed keeper is retired, and
the unrelated task is untouched; two different dates select the same
tasks. -/
theorem claim_C10_witness :
    (({ name := "Cap Automator <2023-12-31 23:59:59>", taskId := "t2" }
        : DeployAll.ActiveTask) ∈
      DeployAll.tasksToRetire " <2024-01-02 03:04:05>" Scenario.activeTasksDemo
        ["Cap Automator", "D3M Ticker"]) ∧
    (({ name := "Unrelated Keeper <2024-01-02 03:04:05>", taskId := "t4" }
        : DeployAll.ActiveTask) ∉
      DeployAll.tasksToRetire " <2024-01-02 03:04:05>" Scenario.activeTasksDemo
        ["Cap Automator", "D3M Ticker"]) ∧
    (DeployAll.tasksToRetire (DeployAll.mkDeploymentTag "2024-01-02T03:04:05.000Z")
        Scenario.activeTasksDemo ["Cap Automator", "D3M Ticker"] =
      DeployAll.tasksToRetire (DeployAll.mkDeploymentTag "2023-12-31T23:59:59.000Z")
        Scenario.activeTasksDemo ["Cap Automator", "D3M Ticker"]) :=
  ⟨(claim_C10 " <2024-01-02 03:04:05>" Scenario.activeTasksDemo
      ["Cap Automator", "D3M Ticker"]).1 _ |>.mpr ⟨by decide, by decide⟩,
   (claim_C10 " <2024-01-02 03:04:05>" Scenario.activeTasksDemo
      ["Cap Automator", "D3M Ticker"]).2.2.2.2 _ (by decide) (by decide),
   (claim_C10 " <2024-01-02 03:04:05>" Scenario.activeTasksDemo
      ["Cap Automator", "D3M Ticker"]).2.2.2.1 "2024-01-02T03:04:05.000Z"
     "2023-12-31T23:59:59.000Z" (by decide) (by decide)⟩

namespace XChainOracleTicker

theorem isStale_iff (e : OracleEnv) (pd : PotData) :
    isStale e pd = true ↔
      (pd.dsr ≠ e.currentDsr ∨ e.latestTimestamp > pd.rho + e.maxDelta) := by
  simp [isStale, Bool.or_eq_true, bne_iff_ne, decide_eq_true_eq]

theorem isStale_eq_false (e : OracleEnv) (pd : PotData)
    (h : ¬ (pd.dsr ≠ e.currentDsr ∨ e.latestTimestamp > pd.rho + e.maxDelta)) :
    isStale e pd = false := by
  rw [← Bool.not_eq_true, isStale_iff]
  exact h

/-- The optimism-style loop consumes one result per consumer and emits,
in order, one `refresh(gasLimit)` call per stale consumer. -/
theorem optLoop_characterization (e : OracleEnv) :
    ∀ (cs : List Consumer) (results : List PotData), cs.length ≤ results.length →
      optLoop e cs results = .ok
        (((cs.zip results).filter (fun p => isStale e p.2)).map
           (fun p => ⟨p.1.forwarder, .refreshOpt e.gasLimit⟩),
         results.drop cs.length) := by
  intro cs
  induction cs with
  | nil => intro results _; simp [optLoop]
  | cons c rest ih =>
    intro results h
    cases results with
    | nil => simp at h
    | cons pd results2 =>
      have h2 : rest.length ≤ results2.length := by simpa using h
      by_cases hst : isStale e pd
      · simp [optLoop, ih results2 h2, hst, List.zip_cons_cons, List.filter_cons]
      · simp [optLoop, ih results2 h2, hst, List.zip_cons_cons, List.filter_cons]

/-- The arbitrum-style loop never throws when there are at least as
many remaining results as consumers. -/
theorem arbLoop_ok (e : OracleEnv) :
    ∀ (cs : List Consumer) (results : List PotData), cs.length ≤ results.length →
      ∃ pr, arbLoop e cs results = .ok pr := by
  intro cs
  induction cs with
  | nil => intro results _; exact ⟨([], results), rfl⟩
  | cons c rest ih =>
    intro results h
    by_cases hsup : e.arbSupported c.forwarder
    · cases results with
      | nil => simp at h
      | cons pd results2 =>
        obtain ⟨⟨calls2, resOut⟩, hr⟩ := ih results2 (by simpa using h)
        by_cases hst : isStale e pd
        · refine ⟨(CallToExec.mk c.forwarder
              (CallData.refreshArb e.gasLimit (e.arbMaxFeePerGas c.forwarder)
                (e.arbBaseFee c.forwarder)) :: calls2, resOut), ?_⟩
          simp [arbLoop, hsup, hr, hst]
        · exact ⟨(calls2, resOut), by simp [arbLoop, hsup, hr, hst]⟩
    · have hsup2 : e.arbSupported c.forwarder = false := by simpa using hsup
      have hstep : arbLoop e (c :: rest) results = arbLoop e rest results := by
        simp [arbLoop, hsup2]
      rw [hstep]
      exact ih results (Nat.le_of_succ_le h)

/-- With no stale data anywhere in the remaining results, the
arbitrum-style loop emits no call. -/
theorem arbLoop_not_stale (e : OracleEnv) :
    ∀ (cs : List Consumer) (results : List PotData), cs.length ≤ results.length →
      (∀ pd ∈ results, isStale e pd = false) →
      ∃ res2, arbLoop e cs results = .ok ([], res2) := by
  intro cs
  induction cs with
  | nil => intro results _ _; exact ⟨results, rfl⟩
  | cons c rest ih =>
    intro results h hall
    by_cases hsup : e.arbSupported c.forwarder
    · cases results with
      | nil => simp at h
      | cons pd results2 =>
        obtain ⟨r3, hr3⟩ := ih results2 (by simpa using h)
          (fun x hx => hall x (List.mem_cons_of_mem _ hx))
        have hpd : isStale e pd = false := hall pd (List.mem_cons_self _ _)
        exact ⟨r3, by simp [arbLoop, hsup, hr3, hpd]⟩
    · have hsup2 : e.arbSupported c.forwarder = false := by simpa using hsup
      have hstep : arbLoop e (c :: rest) results = arbLoop e rest results := by
        simp [arbLoop, hsup2]
      rw [hstep]
      exact ih results (Nat.le_of_succ_le h) hall

/-- Every call emitted by the arbitrum-style loop targets the forwarder
of one of its consumers. -/
theorem arbLoop_calls_targets (e : OracleEnv) :
    ∀ (cs : List Consumer) (results : List PotData) (pr : List CallToExec × List PotData),
      arbLoop e cs results = .ok pr →
      ∀ cl ∈ pr.1, ∃ c ∈ cs, cl.toAddr = c.forwarder := by
  intro cs
  induction cs with
  | nil =>
    intro results pr h cl hcl
    simp only [arbLoop] at h
    cases h
    simp at hcl
  | cons c rest ih =>
    intro results pr h cl hcl
    by_cases hsup : e.arbSupported c.forwarder
    · cases results with
      | nil => simp [arbLoop, hsup] at h
      | cons pd results2 =>
        cases hrec : arbLoop e rest results2 with
        | error err => simp [arbLoop, hsup, hrec] at h
        | ok pr2 =>
          by_cases hst : isStale e pd
          · simp only [arbLoop, hsup, not_true_eq_false, if_false, hrec, hst, if_true] at h
            cases h
            rcases List.mem_cons.mp hcl with rfl | hcl2
            · exact ⟨c, List.mem_cons_self _ _, rfl⟩
            · obtain ⟨c2, hc2, he⟩ := ih results2 pr2 hrec cl hcl2
              exact ⟨c2, List.mem_cons_of_mem _ hc2, he⟩
          · simp only [arbLoop, hsup, not_true_eq_false, if_false, hrec, hst, if_false] at h
            cases h
            obtain ⟨c2, hc2, he⟩ := ih results2 pr2 hrec cl hcl
            exact ⟨c2, List.mem_cons_of_mem _ hc2, he⟩
    · have hsup2 : e.arbSupported c.forwarder = false := by simpa using hsup
      simp only [arbLoop, hsup2] at h
      obtain ⟨c2, hc2, he⟩ := ih results pr (by simpa using h) cl hcl
      exact ⟨c2, List.mem_cons_of_mem _ hc2, he⟩

/-- No optimism-style call targets an address outside the consumer
list. -/
theorem optCalls_filter_nil (e : OracleEnv) (a : String) :
    ∀ (cs : List Consumer) (results : List PotData), a ∉ cs.map Consumer.forwarder →
      (((cs.zip results).filter (fun p => isStale e p.2)).map
          (fun p => (⟨p.1.forwarder, .refreshOpt e.gasLimit⟩ : CallToExec))).filter
        (fun cl => cl.toAddr == a) = [] := by
  intro cs
  induction cs with
  | nil => intro results _; simp
  | cons c rest ih =>
    intro results hna
    cases results with
    | nil => simp
    | cons pd results2 =>
      simp only [List.map_cons, List.mem_cons, not_or] at hna
      have hne : (c.forwarder == a) = false := by
        simp only [beq_eq_false_iff_ne, ne_eq]
        intro he
        exact hna.1 he.symm
      by_cases hst : isStale e pd
      · simp [List.zip_cons_cons, List.filter_cons, hst, hne, ih results2 hna.2]
      · simp [List.zip_cons_cons, List.filter_cons, hst, ih results2 hna.2]

/-- Filtering the optimism-style calls for the forwarder address of the
stale consumer at position `i` yields exactly its one refresh call. -/
theorem optCalls_filter_eq (e : OracleEnv) :
    ∀ (cs : List Consumer) (results : List PotData) (a : String) (i : Nat)
      (hio : i < cs.length) (hir : i < results.length),
      (cs.map Consumer.forwarder).Nodup →
      (cs.get ⟨i, hio⟩).forwarder = a →
      isStale e (results.get ⟨i, hir⟩) = true →
      (((cs.zip results).filter (fun p => isStale e p.2)).map
          (fun p => (⟨p.1.forwarder, .refreshOpt e.gasLimit⟩ : CallToExec))).filter
        (fun cl => cl.toAddr == a) =
      [⟨a, .refreshOpt e.gasLimit⟩] := by
  intro cs
  induction cs with
  | nil => intro results a i hio _ _ _ _; simp at hio
  | cons c rest ih =>
    intro results a i hio hir hnd ha hst
    cases results with
    | nil => simp at hir
    | cons pd results2 =>
      simp only [List.map_cons, List.nodup_cons] at hnd
      cases i with
      | zero =>
        simp only [List.get] at ha hst
        have hfa : (c.forwarder == a) = true := by simp [ha]
        have hrest := optCalls_filter_nil e a rest results2 (ha ▸ hnd.1)
        simp [List.zip_cons_cons, List.filter_cons, hst, hfa, hrest, ha]
      | succ j =>
        simp only [List.get] at ha hst
        have hj : j < rest.length := by simpa using hio
        have hj2 : j < results2.length := by simpa using hir
        have hcne : (c.forwarder == a) = false := by
          have : a ∈ rest.map Consumer.forwarder := by
            rw [← ha]
            exact List.mem_map_of_mem Consumer.forwarder (rest.get_mem j hj)
          simp only [beq_eq_false_iff_ne, ne_eq]
          intro he
          exact hnd.1 (he ▸ this)
        have hrec := ih results2 a j hj hj2 hnd.2 ha hst
        by_cases hstc : isStale e pd
        · simp [List.zip_cons_cons, List.filter_cons, hstc, hcne, hrec]
        · simp [List.zip_cons_cons, List.filter_cons, hstc, hrec]

end XChainOracleTicker

/-- Claim C4: in the xchain-oracle-ticker decision logic a consumer is
stale exactly when its last-seen rate (dsr) differs from the current
rate or the latest block timestamp strictly exceeds its last-update
timestamp (rho) plus the configured maxDelta.  When no read data is
stale the handler returns canExec false with the no-action message;
when the (optimism-style) consumer at position `i` is stale, the
returned bundle contains exactly one encoded refresh call targeting
that consumer forwarder address. -/
theorem claim_C4 (e : XChainOracleTicker.OracleEnv)
    (optConsumers arbConsumers : List XChainOracleTicker.Consumer)
    (results : List XChainOracleTicker.PotData)
    (hlen : results.length = optConsumers.length + arbConsumers.length) :
    ((∀ pd ∈ results,
        ¬ (pd.dsr ≠ e.currentDsr ∨ e.latestTimestamp > pd.rho + e.maxDelta)) →
      XChainOracleTicker.onRun e optConsumers arbConsumers results =
        .ok (.noExec "Pot data refresh not needed")) ∧
    (((optConsumers ++ arbConsumers).map XChainOracleTicker.Consumer.forwarder).Nodup →
      ∀ (i : Nat) (hio : i < optConsumers.length) (hir : i < results.length),
        ((results.get ⟨i, hir⟩).dsr ≠ e.currentDsr ∨
          e.latestTimestamp > (results.get ⟨i, hir⟩).rho + e.maxDelta) →
        ∃ calls, XChainOracleTicker.onRun e optConsumers arbConsumers results =
            .ok (.exec calls) ∧
          calls.filter
              (fun cl => cl.toAddr == (optConsumers.get ⟨i, hio⟩).forwarder) =
            [⟨(optConsumers.get ⟨i, hio⟩).forwarder,
              .refreshOpt e.gasLimit⟩]) := by
  have hlo : optConsumers.length ≤ results.length := by omega
  have hopt := XChainOracleTicker.optLoop_characterization e optConsumers results hlo
  have hlen2 : arbConsumers.length ≤ (results.drop optConsumers.length).length := by
    rw [List.length_drop]
    omega
  constructor
  · intro hall
    have hallb : ∀ pd ∈ results, XChainOracleTicker.isStale e pd = false :=
      fun pd hpd => XChainOracleTicker.isStale_eq_false e pd (hall pd hpd)
    have hfilter : (optConsumers.zip results).filter
        (fun p => XChainOracleTicker.isStale e p.2) = [] := by
      rw [List.filter_eq_nil_iff]
      intro p hp
      simp [hallb p.2 (List.of_mem_zip hp).2]
    rw [hfilter] at hopt
    obtain ⟨res2, harb⟩ := XChainOracleTicker.arbLoop_not_stale e arbConsumers
      (results.drop optConsumers.length) hlen2
      (fun pd hpd => hallb pd (List.mem_of_mem_drop hpd))
    simp [XChainOracleTicker.onRun, hopt, harb]
  · intro hnd i hio hir hstP
    rw [List.map_append] at hnd
    obtain ⟨hndopt, hndarb, hdisj⟩ := List.nodup_append.mp hnd
    have hst : XChainOracleTicker.isStale e (results.get ⟨i, hir⟩) = true :=
      (XChainOracleTicker.isStale_iff e _).mpr hstP
    have hfeq := XChainOracleTicker.optCalls_filter_eq e optConsumers results
      ((optConsumers.get ⟨i, hio⟩).forwarder) i hio hir hndopt rfl hst
    obtain ⟨⟨arbCalls, res3⟩, harb⟩ := XChainOracleTicker.arbLoop_ok e arbConsumers
      (results.drop optConsumers.length) hlen2
    have harbnil : arbCalls.filter
        (fun cl => cl.toAddr == (optConsumers.get ⟨i, hio⟩).forwarder) = [] := by
      rw [List.filter_eq_nil_iff]
      intro cl hcl
      obtain ⟨c2, hc2, he⟩ := XChainOracleTicker.arbLoop_calls_targets e arbConsumers
        (results.drop optConsumers.length) (arbCalls, res3) harb cl hcl
      simp only [beq_iff_eq]
      intro hbeq
      have hmemarb : cl.toAddr ∈ arbConsumers.map XChainOracleTicker.Consumer.forwarder :=
        he ▸ List.mem_map_of_mem _ hc2
      have hmemopt : (optConsumers.get ⟨i, hio⟩).forwarder ∈
          optConsumers.map XChainOracleTicker.Consumer.forwarder :=
        List.mem_map_of_mem _ (optConsumers.get_mem i hio)
      exact hdisj hmemopt (hbeq ▸ hmemarb)
    have hoptne : ((optConsumers.zip results).filter
        (fun p => XChainOracleTicker.isStale e p.2)).map
          (fun p => (⟨p.1.forwarder, .refreshOpt e.gasLimit⟩
            : XChainOracleTicker.CallToExec)) ≠ [] := by
      intro h0
      rw [h0] at hfeq
      simp at hfeq
    refine ⟨((optConsumers.zip results).filter
        (fun p => XChainOracleTicker.isStale e p.2)).map
          (fun p => ⟨p.1.forwarder, .refreshOpt e.gasLimit⟩) ++ arbCalls, ?_, ?_⟩
    · cases hoc : ((optConsumers.zip results).filter
          (fun p => XChainOracleTicker.isStale e p.2)).map
            (fun p => (⟨p.1.forwarder, .refreshOpt e.gasLimit⟩
              : XChainOracleTicker.CallToExec)) with
      | nil => exact absurd hoc hoptne
      | cons x xs =>
        rw [hoc] at hopt
        simp [XChainOracleTicker.onRun, hopt, harb, hoc]
    · rw [List.filter_append, hfeq, harbnil, List.append_nil]

/-- Witness for claim C4: with current rate 5, timestamp 1000 and
maxDelta 100, a consumer whose data reads (5, 950) triggers no action,
while data (5, 800) is stale by time and yields exactly one refresh
call to the consumer forwarder. -/
theorem claim_C4_witness :
    (XChainOracleTicker.onRun Scenario.oracleEnv [Scenario.consumerOpt] [] [⟨5, 950⟩] =
      .ok (.noExec "Pot data refresh not needed")) ∧
    (∃ calls, XChainOracleTicker.onRun Scenario.oracleEnv [Scenario.consumerOpt] [] [⟨5, 800⟩] =
        .ok (.exec calls) ∧
      calls.filter (fun cl => cl.toAddr == "0xF1") =
        [⟨"0xF1", .refreshOpt Scenario.oracleEnv.gasLimit⟩]) :=
  ⟨(claim_C4 Scenario.oracleEnv [Scenario.consumerOpt] [] [⟨5, 950⟩] (by decide)).1 (by decide),
   (claim_C4 Scenario.oracleEnv [Scenario.consumerOpt] [] [⟨5, 800⟩] (by decide)).2 (by decide)
     0 (by decide) (by decide) (by decide)⟩

end SparklendAutomations
